import Mathlib

/-!
Verification of the retention-decision engine of nix-store-clumpgc.py.

The development is a shallow embedding of src/config/tools/nix-store-clumpgc.py.
Timestamps are modelled as integer seconds since the epoch (UTC); the script's
float arithmetic on scores and percentiles is modelled with exact rationals, and
the Gaussian kernel of the temporal smoother with real numbers.  External
collaborators (snapshot enumeration, the booted-generation symlink, git and
nix-store feature retrieval, the state file, the deletion command) are modelled
as explicit inputs.
-/

set_option maxHeartbeats 1000000
set_option maxRecDepth 100000

/-- Truncation of a timestamp to the start of its (UTC) hour; models
datetime.replace(minute=0, second=0, microsecond=0).  Integer emod keeps the
remainder nonnegative, so this is a genuine floor also before the epoch. -/
def floor_hour (t : ℤ) : ℤ := t - t % 3600

/-- Gregorian calendar from days-since-epoch (proleptic, UTC); used to model
datetime.year and datetime.month for month_key.  Standard civil-from-days
computation on integers. -/
def civilFromDays (z0 : ℤ) : ℤ × ℤ × ℤ :=
  let z := z0 + 719468
  let era := z / 146097
  let doe := z - era * 146097
  let yoe := (doe - doe / 1460 + doe / 36524 - doe / 146096) / 365
  let y := yoe + era * 400
  let doy := doe - (365 * yoe + yoe / 4 - yoe / 100)
  let mp := (5 * doy + 2) / 153
  let d := doy - (153 * mp + 2) / 5 + 1
  let m := mp + (if mp < 10 then 3 else -9)
  (y + (if m ≤ 2 then 1 else 0), m, d)

/-- month_key(dt) = dt.year*100 + dt.month (script line 174). -/
def month_key (ts : ℤ) : ℤ :=
  let c := civilFromDays (ts / 86400)
  c.1 * 100 + c.2.1

/-- Key identifying the UTC calendar date of a timestamp; models ts.date()
used as a dictionary key (only equality of keys is ever used). -/
def day_key (ts : ℤ) : ℤ := ts / 86400

/-- Dictionary assignment d[k] = v on an association list: overwrites the
value in place if the key exists, appends otherwise (python dict semantics). -/
def updAssoc {κ β : Type} [DecidableEq κ] : List (κ × β) → κ → β → List (κ × β)
  | [], k, v => [(k, v)]
  | (a, b) :: rest, k, v =>
    if a = k then (a, v) :: rest else (a, b) :: updAssoc rest k v

/-- Stable insertion of x into a sorted list. -/
def sortedInsert {α : Type} (le : α → α → Bool) (x : α) : List α → List α
  | [] => [x]
  | y :: rest => if le x y then x :: y :: rest else y :: sortedInsert le x rest

/-- Stable insertion sort; models python sorted(...) on integer lists (same
output list for every comparison-sort of integers). -/
def sortList {α : Type} (le : α → α → Bool) (l : List α) : List α :=
  l.foldr (sortedInsert le) []

/-- Percentile scaling of one raw value against a multiset of values; models
the inner pct of normalize (script lines 102-115) with the float constants
0.05, 0.95 read as exact rationals. -/
def pct (vals : List ℤ) (x : ℤ) : ℚ :=
  let v := sortList (fun a b => decide (a ≤ b)) vals
  let n := v.length
  if n = 1 then 0
  else
    let p5 := v.getD ((n - 1) * 5 / 100) 0
    let p95 := v.getD ((n - 1) * 95 / 100) 0
    if p95 = p5 then (if x ≤ p5 then 0 else 1)
    else max 0 (min 1 (((x : ℚ) - (p5 : ℚ)) / ((p95 : ℚ) - (p5 : ℚ))))

/-- normalize(vals).get(x, 0.0): the dictionary built by normalize has exactly
the values of vals as keys, each mapped through pct. -/
def normalize_get (vals : List ℤ) (x : ℤ) : ℚ :=
  if x ∈ vals then pct vals x else 0

/-- Gaussian kernel smoothing onto an hourly grid (script lines 117-133).
Returns one entry per hour from floor_hour(first) to floor_hour(last). -/
noncomputable def kernel_smooth (points : List (ℤ × ℚ)) (sigmaHours : ℕ) :
    List (ℤ × ℝ) :=
  match points with
  | [] => []
  | p0 :: rest =>
    let pts := p0 :: rest
    let start := floor_hour p0.1
    let stop := floor_hour (pts.getLast (List.cons_ne_nil p0 rest)).1
    let hours : ℤ := (stop - start) / 3600 + 1
    let s2 : ℝ := 2 * (sigmaHours : ℝ) ^ 2
    (List.range hours.toNat).map fun (i : ℕ) =>
      let t : ℤ := start + 3600 * (i : ℤ)
      (t, pts.foldl
        (fun acc q =>
          let dh : ℝ := |((q.1 : ℝ) - (t : ℝ))| / 3600
          acc + (q.2 : ℝ) * Real.exp (-(dh * dh) / s2)) 0)

/-- Running prefix sums with seed acc; prefixSums vals 0 models the pref list
of select_integral_windows (script lines 142-144). -/
def prefixSums {α : Type} [LinearOrderedRing α] : List α → α → List α
  | [], acc => [acc]
  | v :: rest, acc => acc :: prefixSums rest (acc + v)

/-- Search over candidate lengths L in [hmin, hmax] for the window starting at
i0 with the largest integral (script lines 154-161).  The python loop breaks
on the first L with i0+L > n; since larger L only grow j, skipping those
candidates is equivalent. -/
def bestWindow {α : Type} [LinearOrderedRing α]
    [DecidableRel ((· ≤ ·) : α → α → Prop)]
    [DecidableRel ((· < ·) : α → α → Prop)] (pref : List α)
    (i0 n hmin hmax : ℕ) (minArea : α) : Option (ℕ × ℕ × α) :=
  (List.range' hmin (hmax + 1 - hmin)).foldl
    (fun best L =>
      let j := i0 + L
      if n < j then best
      else
        let a := pref.getD j 0 - pref.getD i0 0
        if minArea ≤ a then
          match best with
          | none => some (i0, j, a)
          | some b => if b.2.2 < a then some (i0, j, a) else best
        else best)
    none

/-- Index of the first False entry of the used mask (script lines 148-151). -/
def firstUnused : List Bool → Option ℕ
  | [] => none
  | b :: rest => if b then (firstUnused rest).map (· + 1) else some 0

/-- Marks indices in [lo, hi) of the used mask (script lines 168-170; the
clamping to grid bounds is implicit in the mask length). -/
def markRange (used : List Bool) (lo hi : ℕ) : List Bool :=
  (List.range used.length).zipWith
    (fun k b => if lo ≤ k ∧ k < hi then true else b) used

/-- Greedy selection loop of select_integral_windows (script lines 152-171).
Each iteration claims at least the index it examined, so grid-length fuel is
enough to reach the natural fixpoint. -/
def selLoop {α : Type} [LinearOrderedRing α]
    [DecidableRel ((· ≤ ·) : α → α → Prop)]
    [DecidableRel ((· < ·) : α → α → Prop)] (pref : List α)
    (n hmin hmax : ℕ) (minArea : α) :
    ℕ → List Bool → List (ℕ × ℕ) → List (ℕ × ℕ)
  | 0, _, acc => acc
  | fuel + 1, used, acc =>
    match firstUnused used with
    | none => acc
    | some i0 =>
      match bestWindow pref i0 n hmin hmax minArea with
      | none => selLoop pref n hmin hmax minArea fuel (used.set i0 true) acc
      | some (i, j, _) =>
        selLoop pref n hmin hmax minArea fuel
          (markRange used (i - 12) (j + 12)) (acc ++ [(i, j)])

/-- Greedy non-overlapping maximal-integral window selection
(script lines 135-172); returns (first-hour, last-hour) timestamp pairs. -/
def select_integral_windows {α : Type} [LinearOrderedRing α]
    [DecidableRel ((· ≤ ·) : α → α → Prop)]
    [DecidableRel ((· < ·) : α → α → Prop)]
    (grid : List (ℤ × α)) (minDays maxDays : ℕ) (minArea : α) :
    List (ℤ × ℤ) :=
  let hmin := minDays * 24
  let hmax := maxDays * 24
  let vals := grid.map Prod.snd
  let pref := prefixSums vals 0
  let sel := selLoop pref grid.length hmin hmax minArea (grid.length + 1)
    (List.replicate grid.length false) []
  sel.map (fun w => ((grid.getD w.1 (0, 0)).1, (grid.getD (w.2 - 1) (0, 0)).1))

/-- Current and previous booted generation from the parsed
/run/current-system symlink (script lines 56-69): the previous one is guessed
as max(current-1, 1).  Natural subtraction at 0 agrees with python's
max(0-1, 1) = 1. -/
def booted_generations (link : Option ℕ) : Option ℕ × Option ℕ :=
  match link with
  | none => (none, none)
  | some c => (some c, some (max (c - 1) 1))

/-- Per-generation record persisted in state["gens"] (ts and score). -/
structure GenRec where
  ts : ℤ
  score : ℚ
deriving DecidableEq, Repr

/-- Persisted state document (script lines 15-16, 183): generation records,
kept reasons, append-only deletion history, pinned overrides, last-run stamp.
Generation-id keys (decimal strings in the JSON) are modelled by the ids
themselves. -/
structure StateDoc where
  gens : List (ℕ × GenRec)
  kept : List (ℕ × String)
  deleted : List ℕ
  pinned : List ℕ
  lastRun : Option ℤ
deriving DecidableEq, Repr

deriving instance DecidableEq for Except

/-- Empty initial state (script line 183). -/
def emptyState : StateDoc := ⟨[], [], [], [], none⟩

/-- Contents of the state file: none when the path does not exist, otherwise
the outcome of reading and JSON-parsing the file (error = the exception
json.load or open would raise). -/
def load_state (file : Option (Except String StateDoc)) :
    Except String StateDoc :=
  match file with
  | none => Except.ok emptyState
  | some r => r

/-- Atomic write of the state document (script lines 185-189): afterwards the
file holds exactly the written document. -/
def save_state (d : StateDoc) : Option (Except String StateDoc) :=
  some (Except.ok d)

/-- Dictionary of git diff line deltas keyed by the newer generation of each
consecutive pair (script lines 219-224); the git collaborator is the oracle
linesOf over the two timestamps. -/
def lines_delta (linesOf : ℤ → ℤ → ℤ) (gens : List (ℕ × ℤ)) :
    List (ℕ × ℤ) :=
  (gens.zip gens.tail).foldl
    (fun d pq => updAssoc d pq.2.1 (linesOf pq.1.2 pq.2.2)) []

/-- Dictionary of store-path deltas (added + removed closure paths) keyed by
the newer generation of each consecutive pair (script lines 225-228); the
closure oracle pathSets models closure_paths with its fail-open handler. -/
def paths_delta (pathSets : ℕ → Finset String) (gens : List (ℕ × ℤ)) :
    List (ℕ × ℤ) :=
  (gens.zip gens.tail).foldl
    (fun d pq =>
      let added := ((pathSets pq.2.1) \ (pathSets pq.1.1)).card
      let removed := ((pathSets pq.1.1) \ (pathSets pq.2.1)).card
      updAssoc d pq.2.1 ((added : ℤ) + (removed : ℤ))) []

/-- Activity score of one enumerate(gens) entry (script lines 234-240):
0.1 for index 0, 0.1 + 0.5*norm(lines) + 0.4*norm(paths) otherwise, with the
float weights read as exact rationals. -/
def scoreVal (linesOf : ℤ → ℤ → ℤ) (pathSets : ℕ → Finset String)
    (gens : List (ℕ × ℤ)) (ig : ℕ × (ℕ × ℤ)) : ℚ :=
  if ig.1 = 0 then 1/10
  else 1/10
    + (1/2) * normalize_get ((lines_delta linesOf gens).map Prod.snd)
        (((lines_delta linesOf gens).lookup ig.2.1).getD 0)
    + (2/5) * normalize_get ((paths_delta pathSets gens).map Prod.snd)
        (((paths_delta pathSets gens).lookup ig.2.1).getD 0)

/-- Activity score dictionary (script lines 230-240), keyed by generation id
over enumerate(gens). -/
def scoreDict (linesOf : ℤ → ℤ → ℤ) (pathSets : ℕ → Finset String)
    (gens : List (ℕ × ℤ)) : List (ℕ × ℚ) :=
  gens.enum.foldl
    (fun d ig => updAssoc d ig.2.1 (scoreVal linesOf pathSets gens ig)) []

/-- score.get(gid, 0.0) (script line 339). -/
def scoreOf (linesOf : ℤ → ℤ → ℤ) (pathSets : ℕ → Finset String)
    (gens : List (ℕ × ℤ)) (gid : ℕ) : ℚ :=
  ((scoreDict linesOf pathSets gens).lookup gid).getD 0

/-- Keep-set plus reason dictionary threaded through the tiers.  The python
set keep is modelled as a duplicate-free list; it is only ever consumed
through membership tests and sorted(keep). -/
abbrev KR := List ℕ × List (ℕ × String)

/-- keep.add(g); reasons[g] = r (unguarded: the reason is overwritten). -/
def addK (kr : KR) (g : ℕ) (r : String) : KR :=
  ((if g ∈ kr.1 then kr.1 else kr.1 ++ [g]), updAssoc kr.2 g r)

/-- The guarded pattern `if g not in keep: keep.add(g); reasons[g] = r`. -/
def addIfNew (kr : KR) (g : ℕ) (r : String) : KR :=
  if g ∈ kr.1 then kr else addK kr g r

/-- Protected tier (script lines 251-253).  The python tests `if cur:` and
`if prev:` are truthiness tests, so a parsed id 0 would be skipped. -/
def keepProtected (cur prev : Option ℕ) (kr : KR) : KR :=
  let kr1 := match cur with
    | some c => if c ≠ 0 then addK kr c "booted-current" else kr
    | none => kr
  match prev with
  | some p => if p ≠ 0 then addK kr1 p "booted-previous" else kr1
  | none => kr1

/-- Recent tier: age at most 3 days keeps everything (script lines 255-258). -/
def keepRecent (now : ℤ) (gens : List (ℕ × ℤ)) (kr : KR) : KR :=
  gens.foldl
    (fun kr g => if now - g.2 ≤ 259200 then addK kr g.1 "<=3d" else kr) kr

/-- Latest generation per UTC calendar date among the 3-10 day tier
(script lines 262-267), in dictionary insertion order. -/
def dailyDict (now : ℤ) (gens : List (ℕ × ℤ)) : List (ℤ × (ℕ × ℤ)) :=
  gens.foldl
    (fun d g =>
      if 259200 < now - g.2 ∧ now - g.2 ≤ 864000 then
        let k := day_key g.2
        match d.lookup k with
        | none => updAssoc d k g
        | some old => if old.2 < g.2 then updAssoc d k g else d
      else d) []

/-- Daily keeps (script lines 268-270). -/
def keepDaily (now : ℤ) (gens : List (ℕ × ℤ)) (kr : KR) : KR :=
  (dailyDict now gens).foldl (fun kr kv => addIfNew kr kv.2.1 "daily") kr

/-- Generations in the 3-10 day tier, in order (script line 274). -/
def prodSubset (now : ℤ) (gens : List (ℕ × ℤ)) : List (ℕ × ℤ) :=
  gens.filter (fun g => decide (259200 < now - g.2 ∧ now - g.2 ≤ 864000))

/-- Timestamp of subset[k]. -/
def tsAt (subset : List (ℕ × ℤ)) (k : ℕ) : ℤ := (subset.getD k (0, 0)).2

/-- Inner scan of the productive-stretch detector (script lines 280-306):
starting from j, the first index whose span from i is at least 36 hours and
whose mean inter-arrival span/(j-i) is at most 12 hours.  The guard 0 < j - i
models the `if intervals>0 else 1e9` fallback, which always fails the test. -/
def prodFind (subset : List (ℕ × ℤ)) (i : ℕ) : ℕ → ℕ → Option ℕ
  | 0, _ => none
  | fuel + 1, j =>
    if j < subset.length then
      let span := tsAt subset j - tsAt subset i
      if 129600 ≤ span ∧ 0 < j - i ∧ span ≤ 43200 * ((j - i : ℕ) : ℤ) then
        some j
      else prodFind subset i fuel (j + 1)
    else none

/-- Index in [i, j] whose timestamp is nearest to ts(i) + 24h, earliest on
ties (script lines 292-298). -/
def nearestTo24h (subset : List (ℕ × ℤ)) (i j : ℕ) : Option ℕ :=
  let target := tsAt subset i + 86400
  ((List.range' i (j + 1 - i)).foldl
    (fun best k =>
      let diff := |tsAt subset k - target|
      match best with
      | none => some (k, diff)
      | some b => if diff < b.2 then some (k, diff) else best) none).map
    Prod.fst

/-- Keeps {first, nearest-to-+24h, last} of a detected stretch
(script lines 299-303), each only if not already kept. -/
def addProd (subset : List (ℕ × ℤ)) (i j : ℕ) (kr : KR) : KR :=
  let firstG := (subset.getD i (0, 0)).1
  let lastG := (subset.getD j (0, 0)).1
  let kr1 := addIfNew kr firstG "prod-first"
  let kr2 := match nearestTo24h subset i j with
    | some k => addIfNew kr1 ((subset.getD k (0, 0)).1) "prod-+24h"
    | none => kr1
  addIfNew kr2 lastG "prod-last"

/-- Outer two-pointer loop of the productive-stretch detector (script lines
276-308): on a hit the anchor jumps to j, otherwise it advances by one.  The
anchor strictly increases every iteration, so subset-length fuel reaches the
natural exit. -/
def prodLoop (subset : List (ℕ × ℤ)) : ℕ → ℕ → KR → KR
  | 0, _, kr => kr
  | fuel + 1, i, kr =>
    if i + 1 < subset.length then
      match prodFind subset i subset.length (i + 1) with
      | some j => prodLoop subset fuel j (addProd subset i j kr)
      | none => prodLoop subset fuel (i + 1) kr
    else kr

/-- Productive-stretch tier (script lines 272-308), entered only with at
least two generations in the 3-10 day range. -/
def keepProd (now : ℤ) (gens : List (ℕ × ℤ)) (kr : KR) : KR :=
  let subset := prodSubset now gens
  if 2 ≤ subset.length then prodLoop subset subset.length 0 kr else kr

/-- Long-term clumping tier (script lines 310-322): restrict the smoothed
grid to hours at least 10 days old, select 5-10 day windows, and keep the
last generation inside each window. -/
noncomputable def keepClump (now : ℤ) (grid : List (ℤ × ℝ))
    (gens : List (ℕ × ℤ)) (kr : KR) : KR :=
  let cutoff := now - 864000
  let gridTail := grid.filter (fun p => decide (p.1 ≤ cutoff))
  match gridTail with
  | [] => kr
  | _ :: _ =>
    let windows := select_integral_windows gridTail 5 10 0
    windows.foldl
      (fun kr w =>
        let cand := gens.filter (fun g => decide (w.1 ≤ g.2 ∧ g.2 ≤ w.2))
        match cand.getLast? with
        | none => kr
        | some c => addIfNew kr c.1 "clump-longterm") kr

/-- Latest generation per month among those older than 90 days
(script lines 325-330). -/
def monthsDict (now : ℤ) (gens : List (ℕ × ℤ)) : List (ℤ × (ℕ × ℤ)) :=
  gens.foldl
    (fun d g =>
      if 7776000 < now - g.2 then
        let mk := month_key g.2
        match d.lookup mk with
        | none => updAssoc d mk g
        | some old => if old.2 < g.2 then updAssoc d mk g else d
      else d) []

/-- Monthly tier (script lines 331-333). -/
def keepMonthly (now : ℤ) (gens : List (ℕ × ℤ)) (kr : KR) : KR :=
  (monthsDict now gens).foldl (fun kr kv => addIfNew kr kv.2.1 "monthly") kr

/-- State-free part of the planner (script lines 247-333): protected, recent,
daily, productive-stretch, clumping and monthly tiers, in program order,
with now = timestamp of the most recent generation. -/
noncomputable def planKR (gens : List (ℕ × ℤ)) (cur prev : Option ℕ)
    (grid : List (ℤ × ℝ)) : KR :=
  let now := (gens.getLastD (0, 0)).2
  let kr := keepProtected cur prev ([], [])
  let kr := keepRecent now gens kr
  let kr := keepDaily now gens kr
  let kr := keepProd now gens kr
  let kr := keepClump now grid gens kr
  keepMonthly now gens kr

/-- State persistence loop (script lines 336-341): upserts the {ts, score}
record of every generation and force-keeps pinned ones. -/
def persistPin (gens : List (ℕ × ℤ)) (sc : ℕ → ℚ)
    (sg : List (ℕ × GenRec)) (pinned : List ℕ) (kr : KR) :
    List (ℕ × GenRec) × KR :=
  gens.foldl
    (fun st g =>
      let sg1 := updAssoc st.1 g.1 ⟨g.2, sc g.1⟩
      let kr1 := if g.1 ∈ pinned then addK st.2 g.1 "pinned" else st.2
      (sg1, kr1)) (sg, kr)

/-- Delete-list compilation (script lines 343-349): every id not kept, with
the current and previous booted ids force-removed afterwards. -/
def deleteList (gens : List (ℕ × ℤ)) (cur prev : Option ℕ)
    (keep : List ℕ) : List ℕ :=
  let allIds := gens.map Prod.fst
  let d0 := allIds.filter (fun g => decide (g ∉ keep))
  let d1 := match cur with
    | some c => if c ∈ d0 then d0.erase c else d0
    | none => d0
  match prev with
  | some p => if p ∈ d1 then d1.erase p else d1
  | none => d1

/-- The kept map written to state["kept"] (script line 352): every kept id in
ascending order with its recorded reason. -/
def keptMapOf (kr : KR) : List (ℕ × String) :=
  (sortList (fun a b => decide (a ≤ b)) kr.1).map
    (fun g => (g, ((kr.2).lookup g).getD ""))

/-- Observable outcome of one run: the reported plan, the keep set with its
reasons, the state-file contents after the run, and whether the physical
deletion command was invoked. -/
structure MainResult where
  planDelete : List ℕ
  keep : List ℕ
  reasons : List (ℕ × String)
  file : Option (Except String StateDoc)
  deleteInvoked : Bool

/-- One full run of the tool (script lines 191-381).  Inputs: the two CLI
flags, the enumerated generations (ascending by timestamp, script line 201),
the parsed current-system symlink, the git and closure oracles, the state
file contents, the exit code the delete-generations command would return, the
wall clock for meta.last_run, and the smoothing bandwidth.  An uncaught
exception (e.g. from json.load) is the error case. -/
noncomputable def main (applyFlag dryRunFlag : Bool) (gens : List (ℕ × ℤ))
    (link : Option ℕ) (linesOf : ℤ → ℤ → ℤ) (pathSets : ℕ → Finset String)
    (file0 : Option (Except String StateDoc)) (delExit : ℤ) (nowClock : ℤ)
    (sigmaHours : ℕ) : Except String MainResult :=
  let dryRun := if applyFlag then dryRunFlag else true
  match gens with
  | [] => Except.ok ⟨[], ∅, [], file0, false⟩
  | _ :: _ =>
    let cp := booted_generations link
    match load_state file0 with
    | Except.error e => Except.error e
    | Except.ok st =>
      let sc := scoreOf linesOf pathSets gens
      let points := gens.map (fun g => (g.2, sc g.1))
      let grid := kernel_smooth points sigmaHours
      let kr0 := planKR gens cp.1 cp.2 grid
      let skr := persistPin gens sc st.gens st.pinned kr0
      let kr := skr.2
      let dels := deleteList gens cp.1 cp.2 kr.1
      let planDelete := sortList (fun a b => decide (a ≤ b)) dels
      let st1 : StateDoc :=
        { st with gens := skr.1, kept := keptMapOf kr, lastRun := some nowClock }
      let file1 := save_state st1
      if dryRun then Except.ok ⟨planDelete, kr.1, kr.2, file1, false⟩
      else
        match planDelete with
        | [] => Except.ok ⟨planDelete, kr.1, kr.2, file1, false⟩
        | _ :: _ =>
          match load_state file1 with
          | Except.error e => Except.error e
          | Except.ok st2 =>
            let st3 := { st2 with deleted := st2.deleted ++ planDelete }
            let file2 := save_state st3
            Except.ok ⟨planDelete, kr.1, kr.2, file2, true⟩

/-- Keep/delete partition reported by a run. -/
noncomputable def partitionOf (r : Except String MainResult) :
    Option (List ℕ × List ℕ) :=
  r.toOption.map (fun m => (m.keep, m.planDelete))

-- scratch
def grid24 : List (ℤ × ℤ) := (List.range 24).map (fun i => ((3600 * (i : ℤ) : ℤ), (0 : ℤ)))
def grid60 : List (ℤ × ℤ) := (List.range 60).map (fun i => ((3600 * (i : ℤ) : ℤ), (1 : ℤ)))
example : select_integral_windows grid24 1 1 0 = [(0, 82800)] := by decide
example : select_integral_windows grid60 1 1 0 = [(0, 82800), (129600, 212400)] := by decide

/-- Deletion history recorded in a state-file value ([] when the file is
absent or unreadable); projection used to state history properties. -/
def deletedOf (f : Option (Except String StateDoc)) : List ℕ :=
  match f with
  | some (Except.ok d) => d.deleted
  | _ => []

/-- Hourly grid of n cells of constant density v, starting at the epoch;
concrete input for window-selector statements. -/
def hourlyGrid (n : ℕ) (v : ℤ) : List (ℤ × ℤ) :=
  (List.range n).map (fun i => (3600 * (i : ℤ), v))

/-- The keep set and reason map a run reaches after all tiers and the pinned
pass (the value of keep/reasons at script line 343). -/
noncomputable def finalKR (gens : List (ℕ × ℤ)) (link : Option ℕ)
    (linesOf : ℤ → ℤ → ℤ) (pathSets : ℕ → Finset String) (st : StateDoc)
    (sigmaHours : ℕ) : KR :=
  (persistPin gens (scoreOf linesOf pathSets gens) st.gens st.pinned
    (planKR gens (booted_generations link).1 (booted_generations link).2
      (kernel_smooth
        (gens.map (fun g => (g.2, scoreOf linesOf pathSets gens g.1)))
        sigmaHours))).2

/-- The state["gens"] record map after the persistence loop. -/
noncomputable def finalGens (gens : List (ℕ × ℤ)) (link : Option ℕ)
    (linesOf : ℤ → ℤ → ℤ) (pathSets : ℕ → Finset String) (st : StateDoc)
    (sigmaHours : ℕ) : List (ℕ × GenRec) :=
  (persistPin gens (scoreOf linesOf pathSets gens) st.gens st.pinned
    (planKR gens (booted_generations link).1 (booted_generations link).2
      (kernel_smooth
        (gens.map (fun g => (g.2, scoreOf linesOf pathSets gens g.1)))
        sigmaHours))).1

/-- The sorted plan of deletions a run reports (script line 354). -/
noncomputable def finalPlanDelete (gens : List (ℕ × ℤ)) (link : Option ℕ)
    (linesOf : ℤ → ℤ → ℤ) (pathSets : ℕ → Finset String) (st : StateDoc)
    (sigmaHours : ℕ) : List ℕ :=
  sortList (fun a b => decide (a ≤ b))
    (deleteList gens (booted_generations link).1 (booted_generations link).2
      (finalKR gens link linesOf pathSets st sigmaHours).1)

/-- The state document saved before any deletion action (script line 360). -/
noncomputable def finalStateDoc (gens : List (ℕ × ℤ)) (link : Option ℕ)
    (linesOf : ℤ → ℤ → ℤ) (pathSets : ℕ → Finset String) (st : StateDoc)
    (nowClock : ℤ) (sigmaHours : ℕ) : StateDoc :=
  { st with
    gens := finalGens gens link linesOf pathSets st sigmaHours,
    kept := keptMapOf (finalKR gens link linesOf pathSets st sigmaHours),
    lastRun := some nowClock }

/-! Basic lemmas about the list-level building blocks. -/

theorem mem_sortedInsert {α : Type} (le : α → α → Bool) (x a : α) :
    ∀ l : List α, a ∈ sortedInsert le x l ↔ a = x ∨ a ∈ l := by
  intro l
  induction l with
  | nil => simp [sortedInsert]
  | cons y rest ih =>
    by_cases h : le x y
    · simp [sortedInsert, h]
    · simp only [sortedInsert, h, Bool.false_eq_true, if_false, List.mem_cons, ih]
      tauto

theorem mem_sortList {α : Type} (le : α → α → Bool) (a : α) :
    ∀ l : List α, a ∈ sortList le l ↔ a ∈ l := by
  intro l
  induction l with
  | nil => simp [sortList]
  | cons y rest ih =>
    simp only [sortList, List.foldr_cons, List.mem_cons]
    rw [show List.foldr (sortedInsert le) [] rest = sortList le rest from rfl]
      at *
    rw [mem_sortedInsert, ih]

theorem lookup_updAssoc_self {β : Type} (l : List (ℕ × β)) (k : ℕ) (v : β) :
    (updAssoc l k v).lookup k = some v := by
  induction l with
  | nil => simp [updAssoc]
  | cons p rest ih =>
    obtain ⟨a, b⟩ := p
    by_cases h : a = k
    · subst h; simp [updAssoc]
    · simp [updAssoc, h, List.lookup_cons, beq_false_of_ne (Ne.symm h), ih]

theorem lookup_updAssoc_ne {β : Type} (l : List (ℕ × β)) (k k' : ℕ) (v : β)
    (h : k' ≠ k) : (updAssoc l k v).lookup k' = l.lookup k' := by
  induction l with
  | nil => simp [updAssoc, List.lookup_cons, beq_false_of_ne h]
  | cons p rest ih =>
    obtain ⟨a, b⟩ := p
    by_cases ha : a = k
    · subst ha
      simp [updAssoc, List.lookup_cons, beq_false_of_ne h]
    · by_cases hk : k' = a
      · subst hk; simp [updAssoc, ha, List.lookup_cons]
      · simp [updAssoc, ha, List.lookup_cons, beq_false_of_ne hk, ih]

/-! Monotonicity of the keep set: every tier only ever adds ids. -/

theorem addK_keep_mono (kr : KR) (g : ℕ) (r : String) (a : ℕ)
    (ha : a ∈ kr.1) : a ∈ (addK kr g r).1 := by
  by_cases h : g ∈ kr.1 <;> simp [addK, h, ha]

theorem mem_addK_self (kr : KR) (g : ℕ) (r : String) : g ∈ (addK kr g r).1 := by
  by_cases h : g ∈ kr.1 <;> simp [addK, h]

theorem addIfNew_keep_mono (kr : KR) (g : ℕ) (r : String) (a : ℕ)
    (ha : a ∈ kr.1) : a ∈ (addIfNew kr g r).1 := by
  by_cases h : g ∈ kr.1
  · simpa [addIfNew, h] using ha
  · simpa [addIfNew, h] using addK_keep_mono kr g r a ha

theorem foldl_keep_mono {β : Type} (f : KR → β → KR)
    (hf : ∀ kr x a, a ∈ kr.1 → a ∈ (f kr x).1) :
    ∀ (l : List β) (kr : KR) (a : ℕ), a ∈ kr.1 → a ∈ (l.foldl f kr).1 := by
  intro l
  induction l with
  | nil => intro kr a ha; simpa using ha
  | cons x rest ih =>
    intro kr a ha
    exact ih (f kr x) a (hf kr x a ha)

theorem keepRecent_mono (now : ℤ) (gens : List (ℕ × ℤ)) (kr : KR) (a : ℕ)
    (ha : a ∈ kr.1) : a ∈ (keepRecent now gens kr).1 := by
  refine foldl_keep_mono _ (fun kr g b hb => ?_) gens kr a ha
  by_cases h : now - g.2 ≤ 259200
  · simpa [h] using addK_keep_mono kr g.1 "<=3d" b hb
  · simpa [h] using hb

theorem keepDaily_mono (now : ℤ) (gens : List (ℕ × ℤ)) (kr : KR) (a : ℕ)
    (ha : a ∈ kr.1) : a ∈ (keepDaily now gens kr).1 :=
  foldl_keep_mono _ (fun kr kv b hb => addIfNew_keep_mono kr kv.2.1 "daily" b hb)
    (dailyDict now gens) kr a ha

theorem addProd_keep_mono (subset : List (ℕ × ℤ)) (i j : ℕ) (kr : KR) (a : ℕ)
    (ha : a ∈ kr.1) : a ∈ (addProd subset i j kr).1 := by
  unfold addProd
  have h1 := addIfNew_keep_mono kr (subset.getD i (0, 0)).1 "prod-first" a ha
  cases hn : nearestTo24h subset i j with
  | none =>
    simpa [hn] using
      addIfNew_keep_mono _ (subset.getD j (0, 0)).1 "prod-last" a h1
  | some k =>
    have h2 := addIfNew_keep_mono _ ((subset.getD k (0, 0)).1) "prod-+24h" a h1
    simpa [hn] using
      addIfNew_keep_mono _ (subset.getD j (0, 0)).1 "prod-last" a h2

theorem prodLoop_keep_mono (subset : List (ℕ × ℤ)) :
    ∀ (fuel i : ℕ) (kr : KR) (a : ℕ), a ∈ kr.1 →
      a ∈ (prodLoop subset fuel i kr).1 := by
  intro fuel
  induction fuel with
  | zero => intro i kr a ha; simpa [prodLoop] using ha
  | succ fuel ih =>
    intro i kr a ha
    unfold prodLoop
    by_cases h : i + 1 < subset.length
    · simp only [h, if_true]
      cases hf : prodFind subset i subset.length (i + 1) with
      | none => exact ih (i + 1) kr a ha
      | some j => exact ih j _ a (addProd_keep_mono subset i j kr a ha)
    · simpa [h] using ha

theorem keepProd_mono (now : ℤ) (gens : List (ℕ × ℤ)) (kr : KR) (a : ℕ)
    (ha : a ∈ kr.1) : a ∈ (keepProd now gens kr).1 := by
  unfold keepProd
  by_cases h : 2 ≤ (prodSubset now gens).length
  · simpa [h] using prodLoop_keep_mono (prodSubset now gens) _ 0 kr a ha
  · simpa [h] using ha

theorem keepClump_mono (now : ℤ) (grid : List (ℤ × ℝ))
    (gens : List (ℕ × ℤ)) (kr : KR) (a : ℕ) (ha : a ∈ kr.1) :
    a ∈ (keepClump now grid gens kr).1 := by
  unfold keepClump
  cases htail : grid.filter (fun p => decide (p.1 ≤ now - 864000)) with
  | nil => simpa [htail] using ha
  | cons p rest =>
    simp only [htail]
    refine foldl_keep_mono _ (fun kr w b hb => ?_) _ kr a ha
    cases hc : (gens.filter (fun g => decide (w.1 ≤ g.2 ∧ g.2 ≤ w.2))).getLast? with
    | none => simpa [hc] using hb
    | some c => simpa [hc] using addIfNew_keep_mono kr c.1 "clump-longterm" b hb

theorem keepMonthly_mono (now : ℤ) (gens : List (ℕ × ℤ)) (kr : KR) (a : ℕ)
    (ha : a ∈ kr.1) : a ∈ (keepMonthly now gens kr).1 :=
  foldl_keep_mono _ (fun kr kv b hb => addIfNew_keep_mono kr kv.2.1 "monthly" b hb)
    (monthsDict now gens) kr a ha

theorem persistPin_keep_mono (gens : List (ℕ × ℤ)) (sc : ℕ → ℚ) :
    ∀ (sg : List (ℕ × GenRec)) (pinned : List ℕ) (kr : KR) (a : ℕ),
      a ∈ kr.1 → a ∈ (persistPin gens sc sg pinned kr).2.1 := by
  induction gens with
  | nil => intro sg pinned kr a ha; simpa [persistPin] using ha
  | cons g rest ih =>
    intro sg pinned kr a ha
    show a ∈ (persistPin (g :: rest) sc sg pinned kr).2.1
    unfold persistPin
    simp only [List.foldl_cons]
    by_cases h : g.1 ∈ pinned
    · exact ih _ pinned _ a (by simpa [h] using addK_keep_mono kr g.1 "pinned" a ha)
    · exact ih _ pinned _ a (by simpa [h] using ha)

theorem keepProtected_mem_cur (c : ℕ) (hc : c ≠ 0) (prev : Option ℕ)
    (kr : KR) : c ∈ (keepProtected (some c) prev kr).1 := by
  unfold keepProtected
  have h1 : c ∈ (addK kr c "booted-current").1 := mem_addK_self kr c "booted-current"
  cases prev with
  | none => simpa [hc] using h1
  | some p =>
    by_cases hp : p ≠ 0
    · simpa [hc, hp] using addK_keep_mono _ p "booted-previous" c h1
    · simpa [hc, hp] using h1

theorem keepProtected_mem_prev (p : ℕ) (hp : p ≠ 0) (cur : Option ℕ)
    (kr : KR) : p ∈ (keepProtected cur (some p) kr).1 := by
  unfold keepProtected
  simpa [hp] using mem_addK_self _ p "booted-previous"

theorem planKR_keep_mono (gens : List (ℕ × ℤ)) (cur prev : Option ℕ)
    (grid : List (ℤ × ℝ)) (a : ℕ)
    (ha : a ∈ (keepProtected cur prev ([], [])).1) :
    a ∈ (planKR gens cur prev grid).1 := by
  unfold planKR
  exact keepMonthly_mono _ gens _ a
    (keepClump_mono _ grid gens _ a
      (keepProd_mono _ gens _ a
        (keepDaily_mono _ gens _ a
          (keepRecent_mono _ gens _ a ha))))

/-! Properties of the delete-list compilation (script lines 343-349). -/

theorem mem_of_mem_eraseIf (l : List ℕ) (c x : ℕ)
    (h : x ∈ (if c ∈ l then l.erase c else l)) : x ∈ l := by
  split at h
  · exact List.mem_of_mem_erase h
  · exact h

theorem deleteList_subset_unkept (gens : List (ℕ × ℤ)) (cur prev : Option ℕ)
    (keep : List ℕ) (x : ℕ) (hx : x ∈ deleteList gens cur prev keep) :
    x ∈ gens.map Prod.fst ∧ x ∉ keep := by
  unfold deleteList at hx
  dsimp only at hx
  have hx1 : x ∈ (gens.map Prod.fst).filter (fun g => decide (g ∉ keep)) := by
    cases prev with
    | none =>
      cases cur with
      | none => exact hx
      | some c => exact mem_of_mem_eraseIf _ c x hx
    | some p =>
      cases cur with
      | none => exact mem_of_mem_eraseIf _ p x hx
      | some c => exact mem_of_mem_eraseIf _ c x (mem_of_mem_eraseIf _ p x hx)
  refine ⟨List.mem_of_mem_filter hx1, ?_⟩
  simpa using List.of_mem_filter hx1

theorem not_mem_deleteList_of_keep (gens : List (ℕ × ℤ)) (cur prev : Option ℕ)
    (keep : List ℕ) (c : ℕ) (hc : c ∈ keep) :
    c ∉ deleteList gens cur prev keep := by
  intro hmem
  exact (deleteList_subset_unkept gens cur prev keep c hmem).2 hc

theorem cur_not_mem_deleteList (gens : List (ℕ × ℤ)) (prev : Option ℕ)
    (keep : List ℕ) (c : ℕ) (hnd : (gens.map Prod.fst).Nodup) :
    c ∉ deleteList gens (some c) prev keep := by
  unfold deleteList
  dsimp only
  have hnd0 : ((gens.map Prod.fst).filter (fun g => decide (g ∉ keep))).Nodup :=
    hnd.filter _
  have h1 : c ∉
      (if c ∈ (gens.map Prod.fst).filter (fun g => decide (g ∉ keep)) then
        ((gens.map Prod.fst).filter (fun g => decide (g ∉ keep))).erase c
      else (gens.map Prod.fst).filter (fun g => decide (g ∉ keep))) := by
    split
    · exact hnd0.not_mem_erase
    · next h => exact h
  cases prev with
  | none => exact h1
  | some p => exact fun hmem => h1 (mem_of_mem_eraseIf _ p c hmem)

/-! Shape of a run result in each mode. -/

theorem main_dry_eq (applyFlag dryRunFlag : Bool) (g : ℕ × ℤ) (gs : List (ℕ × ℤ))
    (link : Option ℕ) (linesOf : ℤ → ℤ → ℤ) (pathSets : ℕ → Finset String)
    (file0 : Option (Except String StateDoc)) (delExit nowClock : ℤ)
    (sigmaHours : ℕ) (st : StateDoc)
    (hdry : (if applyFlag then dryRunFlag else true) = true)
    (hload : load_state file0 = Except.ok st) :
    main applyFlag dryRunFlag (g :: gs) link linesOf pathSets file0 delExit
        nowClock sigmaHours =
      Except.ok
        ⟨finalPlanDelete (g :: gs) link linesOf pathSets st sigmaHours,
         (finalKR (g :: gs) link linesOf pathSets st sigmaHours).1,
         (finalKR (g :: gs) link linesOf pathSets st sigmaHours).2,
         save_state (finalStateDoc (g :: gs) link linesOf pathSets st nowClock
           sigmaHours),
         false⟩ := by
  unfold main
  rw [hload, hdry]
  rfl

theorem main_apply_eq (g : ℕ × ℤ) (gs : List (ℕ × ℤ))
    (link : Option ℕ) (linesOf : ℤ → ℤ → ℤ) (pathSets : ℕ → Finset String)
    (file0 : Option (Except String StateDoc)) (delExit nowClock : ℤ)
    (sigmaHours : ℕ) (st : StateDoc)
    (hload : load_state file0 = Except.ok st) :
    main true false (g :: gs) link linesOf pathSets file0 delExit
        nowClock sigmaHours =
      Except.ok
        ⟨finalPlanDelete (g :: gs) link linesOf pathSets st sigmaHours,
         (finalKR (g :: gs) link linesOf pathSets st sigmaHours).1,
         (finalKR (g :: gs) link linesOf pathSets st sigmaHours).2,
         save_state
           { finalStateDoc (g :: gs) link linesOf pathSets st nowClock sigmaHours
             with deleted :=
               (finalStateDoc (g :: gs) link linesOf pathSets st nowClock
                 sigmaHours).deleted ++
               finalPlanDelete (g :: gs) link linesOf pathSets st sigmaHours },
         true⟩ ∨
      (finalPlanDelete (g :: gs) link linesOf pathSets st sigmaHours = [] ∧
       main true false (g :: gs) link linesOf pathSets file0 delExit
          nowClock sigmaHours =
        Except.ok
          ⟨finalPlanDelete (g :: gs) link linesOf pathSets st sigmaHours,
           (finalKR (g :: gs) link linesOf pathSets st sigmaHours).1,
           (finalKR (g :: gs) link linesOf pathSets st sigmaHours).2,
           save_state (finalStateDoc (g :: gs) link linesOf pathSets st nowClock
             sigmaHours),
           false⟩) := by
  unfold main
  rw [hload]
  rw [show (if ((true : Bool) = true) then (false : Bool) else true) = false
    from rfl]
  dsimp only
  simp only [Bool.false_eq_true, if_false]
  have hfin : sortList (fun a b => decide (a ≤ b))
      (deleteList (g :: gs) (booted_generations link).1
        (booted_generations link).2
        (persistPin (g :: gs) (scoreOf linesOf pathSets (g :: gs)) st.gens
          st.pinned
          (planKR (g :: gs) (booted_generations link).1
            (booted_generations link).2
            (kernel_smooth
              (List.map (fun x => (x.2, scoreOf linesOf pathSets (g :: gs) x.1))
                (g :: gs)) sigmaHours))).2.1) =
      finalPlanDelete (g :: gs) link linesOf pathSets st sigmaHours := rfl
  rw [hfin]
  cases hpd : finalPlanDelete (g :: gs) link linesOf pathSets st sigmaHours with
  | nil => exact Or.inr ⟨rfl, rfl⟩
  | cons d ds => exact Or.inl rfl

theorem main_nil_eq (applyFlag dryRunFlag : Bool) (link : Option ℕ)
    (linesOf : ℤ → ℤ → ℤ) (pathSets : ℕ → Finset String)
    (file0 : Option (Except String StateDoc)) (delExit nowClock : ℤ)
    (sigmaHours : ℕ) :
    main applyFlag dryRunFlag [] link linesOf pathSets file0 delExit
        nowClock sigmaHours = Except.ok ⟨[], [], [], file0, false⟩ := rfl

theorem main_error_eq (applyFlag dryRunFlag : Bool) (g : ℕ × ℤ)
    (gs : List (ℕ × ℤ)) (link : Option ℕ) (linesOf : ℤ → ℤ → ℤ)
    (pathSets : ℕ → Finset String) (file0 : Option (Except String StateDoc))
    (delExit nowClock : ℤ) (sigmaHours : ℕ) (e : String)
    (hload : load_state file0 = Except.error e) :
    main applyFlag dryRunFlag (g :: gs) link linesOf pathSets file0 delExit
        nowClock sigmaHours = Except.error e := by
  unfold main
  rw [hload]

theorem c1_core (gens : List (ℕ × ℤ)) (c : ℕ) (linesOf : ℤ → ℤ → ℤ)
    (pathSets : ℕ → Finset String) (st : StateDoc) (sigmaHours : ℕ)
    (hnd : (gens.map Prod.fst).Nodup) :
    c ∉ finalPlanDelete gens (some c) linesOf pathSets st sigmaHours ∧
    max (c - 1) 1 ∉ finalPlanDelete gens (some c) linesOf pathSets st
      sigmaHours := by
  constructor
  · intro hmem
    unfold finalPlanDelete at hmem
    rw [mem_sortList] at hmem
    by_cases hc : c = 0
    · subst hc
      exact cur_not_mem_deleteList gens _ _ 0 hnd hmem
    · have hkeep : c ∈ (finalKR gens (some c) linesOf pathSets st sigmaHours).1 :=
        persistPin_keep_mono gens _ st.gens st.pinned _ c
          (planKR_keep_mono gens _ _ _ c (keepProtected_mem_cur c hc _ _))
      exact not_mem_deleteList_of_keep _ _ _ _ c hkeep hmem
  · intro hmem
    unfold finalPlanDelete at hmem
    rw [mem_sortList] at hmem
    have hp : max (c - 1) 1 ≠ 0 := by omega
    have hkeep : max (c - 1) 1 ∈
        (finalKR gens (some c) linesOf pathSets st sigmaHours).1 :=
      persistPin_keep_mono gens _ st.gens st.pinned _ _
        (planKR_keep_mono gens _ _ _ _ (keepProtected_mem_prev _ hp _ _))
    exact not_mem_deleteList_of_keep _ _ _ _ _ hkeep hmem

/-- C1: in every run, the currently-active generation id and the
previously-active one (max(cur-1, 1)) are absent from the final reported
delete list: both are inserted into the keep set by the protected tier at the
start of planning (when nonzero) and force-removed from the delete list
before the plan is reported, so neither survives into planDelete.  Unique ids
are a data-model invariant of the enumeration. -/
theorem c1_protected_ids_never_deleted
    (applyFlag dryRunFlag : Bool) (gens : List (ℕ × ℤ)) (c : ℕ)
    (linesOf : ℤ → ℤ → ℤ) (pathSets : ℕ → Finset String)
    (file0 : Option (Except String StateDoc)) (delExit nowClock : ℤ)
    (sigmaHours : ℕ) (r : MainResult)
    (hnd : (gens.map Prod.fst).Nodup)
    (hr : main applyFlag dryRunFlag gens (some c) linesOf pathSets file0
      delExit nowClock sigmaHours = Except.ok r) :
    c ∉ r.planDelete ∧ max (c - 1) 1 ∉ r.planDelete := by
  cases gens with
  | nil =>
    rw [main_nil_eq] at hr
    rw [Except.ok.injEq] at hr
    subst hr
    simp
  | cons g gs =>
    cases hl : load_state file0 with
    | error e =>
      rw [main_error_eq applyFlag dryRunFlag g gs _ linesOf pathSets file0
        delExit nowClock sigmaHours e hl] at hr
      exact absurd hr (by simp)
    | ok st =>
      have hcore := c1_core (g :: gs) c linesOf pathSets st sigmaHours hnd
      by_cases hdry : (if applyFlag then dryRunFlag else true) = true
      · rw [main_dry_eq applyFlag dryRunFlag g gs _ linesOf pathSets file0
          delExit nowClock sigmaHours st hdry hl] at hr
        rw [Except.ok.injEq] at hr
        subst hr
        exact hcore
      · have hflags : applyFlag = true ∧ dryRunFlag = false := by
          cases applyFlag <;> cases dryRunFlag <;> simp_all
      
        obtain ⟨ha, hd⟩ := hflags
        subst ha; subst hd
        rcases main_apply_eq g gs _ linesOf pathSets file0 delExit nowClock
          sigmaHours st hl with heq | ⟨hpd0, heq⟩ <;>
        · rw [heq] at hr
          rw [Except.ok.injEq] at hr
          subst hr
          exact hcore

/-- Witness for C1: a concrete dry run with one generation and current id 1;
both protected ids (1 and max(1-1,1) = 1) are absent from the plan. -/
theorem c1_witness :
    ∃ r : MainResult,
      main false false [(1, 42)] (some 1) (fun _ _ => 0) (fun _ => ∅) none 0 99
          12 = Except.ok r ∧
        1 ∉ r.planDelete ∧ max (1 - 1) 1 ∉ r.planDelete := by
  have hok : (main false false [(1, 42)] (some 1) (fun _ _ => 0) (fun _ => ∅)
      none 0 99 12).isOk = true := by with_unfolding_all decide
  cases hm : main false false [(1, 42)] (some 1) (fun _ _ => 0) (fun _ => ∅)
      none 0 99 12 with
  | error e =>
    rw [hm] at hok
    exact absurd hok (by simp [Except.isOk, Except.toBool])
  | ok r =>
    exact ⟨r, rfl, c1_protected_ids_never_deleted false false [(1, 42)] 1
      (fun _ _ => 0) (fun _ => ∅) none 0 99 12 r (by decide) hm⟩

/-- Counterexample to C3: a state file that exists but is malformed does not
yield the empty initial state; load_state propagates the parse error and the
run aborts instead of proceeding. -/
theorem c3_counterexample :
    load_state (some (Except.error "malformed")) ≠ Except.ok emptyState ∧
    main false false [(1, 42)] (some 1) (fun _ _ => 0) (fun _ => ∅)
      (some (Except.error "malformed")) 0 99 12 =
      Except.error "malformed" := by
  constructor
  · decide
  · exact main_error_eq false false (1, 42) [] (some 1) (fun _ _ => 0)
      (fun _ => ∅) _ 0 99 12 "malformed" rfl

/-- C3 as amended: only an absent state file is recovered as the empty
initial state (and the run then behaves exactly as with an empty persisted
document); a file that exists but is unreadable or malformed propagates its
exception and the run fails instead of proceeding. -/
theorem c3_absent_recovered_malformed_fatal :
    load_state none = Except.ok emptyState ∧
    (∀ e : String, load_state (some (Except.error e)) = Except.error e) ∧
    (∀ (applyFlag dryRunFlag : Bool) (g : ℕ × ℤ) (gs : List (ℕ × ℤ))
      (link : Option ℕ) (linesOf : ℤ → ℤ → ℤ) (pathSets : ℕ → Finset String)
      (delExit nowClock : ℤ) (sigmaHours : ℕ),
      main applyFlag dryRunFlag (g :: gs) link linesOf pathSets none delExit
          nowClock sigmaHours =
        main applyFlag dryRunFlag (g :: gs) link linesOf pathSets
          (some (Except.ok emptyState)) delExit nowClock sigmaHours) ∧
    (∀ (applyFlag dryRunFlag : Bool) (g : ℕ × ℤ) (gs : List (ℕ × ℤ))
      (link : Option ℕ) (linesOf : ℤ → ℤ → ℤ) (pathSets : ℕ → Finset String)
      (delExit nowClock : ℤ) (sigmaHours : ℕ) (e : String),
      main applyFlag dryRunFlag (g :: gs) link linesOf pathSets
          (some (Except.error e)) delExit nowClock sigmaHours =
        Except.error e) := by
  refine ⟨rfl, fun e => rfl, fun aF dF g gs link lo ps dE nC sig => rfl,
    fun aF dF g gs link lo ps dE nC sig e => ?_⟩
  exact main_error_eq aF dF g gs link lo ps _ dE nC sig e rfl

/-- Counterexample to C2: an apply run whose delete-generations command exits
with code 1 (failure) still extends the persisted deletedHistory.  Before the
run the history is empty (no state file); after the run it is [1]. -/
theorem c2_counterexample :
    ((main true false [(1, 0), (2, 3600), (3, 345600)] (some 3) (fun _ _ => 0)
        (fun _ => ∅) none 1 99 12).toOption.map
      (fun r => (deletedOf r.file, r.deleteInvoked))) = some ([1], true) ∧
    deletedOf none = [] ∧ ([1] : List ℕ) ≠ [] := by
  refine ⟨?_, rfl, by decide⟩
  with_unfolding_all decide

/-- C2 as amended: in apply mode the run appends the entire reported plan to
deletedHistory no matter what exit code the physical-deletion command
returns; a nonzero exit code is only reported, it does not keep the history
unchanged.  The final persisted history always equals the loaded history
followed by the plan. -/
theorem c2_deleted_appended_regardless_of_exit
    (g : ℕ × ℤ) (gs : List (ℕ × ℤ)) (link : Option ℕ)
    (linesOf : ℤ → ℤ → ℤ) (pathSets : ℕ → Finset String)
    (file0 : Option (Except String StateDoc)) (delExit nowClock : ℤ)
    (sigmaHours : ℕ) (st : StateDoc) (r : MainResult)
    (hload : load_state file0 = Except.ok st)
    (hr : main true false (g :: gs) link linesOf pathSets file0 delExit
      nowClock sigmaHours = Except.ok r) :
    ∃ stFin : StateDoc, r.file = save_state stFin ∧
      stFin.deleted = st.deleted ++ r.planDelete := by
  rcases main_apply_eq g gs link linesOf pathSets file0 delExit nowClock
    sigmaHours st hload with heq | ⟨hpd0, heq⟩
  · rw [heq] at hr
    rw [Except.ok.injEq] at hr
    subst hr
    exact ⟨_, rfl, rfl⟩
  · rw [heq] at hr
    rw [Except.ok.injEq] at hr
    subst hr
    refine ⟨_, rfl, ?_⟩
    simp [hpd0, finalStateDoc]

/-- Witness for C2's amended theorem: the concrete failing apply run of the
counterexample, with its plan [1] appended to the empty prior history. -/
theorem c2_witness :
    ∃ r : MainResult,
      main true false [(1, 0), (2, 3600), (3, 345600)] (some 3) (fun _ _ => 0)
          (fun _ => ∅) none 1 99 12 = Except.ok r ∧
      ∃ stFin : StateDoc, r.file = save_state stFin ∧
        stFin.deleted = emptyState.deleted ++ r.planDelete := by
  have hok : (main true false [(1, 0), (2, 3600), (3, 345600)] (some 3)
      (fun _ _ => 0) (fun _ => ∅) none 1 99 12).isOk = true := by
    with_unfolding_all decide
  cases hm : main true false [(1, 0), (2, 3600), (3, 345600)] (some 3)
      (fun _ _ => 0) (fun _ => ∅) none 1 99 12 with
  | error e =>
    rw [hm] at hok
    exact absurd hok (by simp [Except.isOk, Except.toBool])
  | ok r =>
    exact ⟨r, rfl, c2_deleted_appended_regardless_of_exit (1, 0)
      [(2, 3600), (3, 345600)] (some 3) (fun _ _ => 0) (fun _ => ∅) none 1 99
      12 emptyState r rfl hm⟩

theorem persistPin_lookup_not_mem (sc : ℕ → ℚ) (k : ℕ) :
    ∀ (gens : List (ℕ × ℤ)) (sg : List (ℕ × GenRec)) (pinned : List ℕ)
      (kr : KR), k ∉ gens.map Prod.fst →
      (persistPin gens sc sg pinned kr).1.lookup k = sg.lookup k := by
  intro gens
  induction gens with
  | nil => intro sg pinned kr _; rfl
  | cons g rest ih =>
    intro sg pinned kr hk
    rw [List.map_cons, List.mem_cons] at hk
    push_neg at hk
    show (persistPin (g :: rest) sc sg pinned kr).1.lookup k = sg.lookup k
    unfold persistPin
    simp only [List.foldl_cons]
    rw [show (List.foldl _ _ rest : List (ℕ × GenRec) × KR) =
      persistPin rest sc (updAssoc sg g.1 ⟨g.2, sc g.1⟩)
        pinned (if g.1 ∈ pinned then addK kr g.1 "pinned" else kr) from rfl]
    rw [ih _ pinned _ hk.2]
    exact lookup_updAssoc_ne sg g.1 k ⟨g.2, sc g.1⟩ hk.1

theorem persistPin_lookup (sc : ℕ → ℚ) :
    ∀ (gens : List (ℕ × ℤ)) (sg : List (ℕ × GenRec)) (pinned : List ℕ)
      (kr : KR), (gens.map Prod.fst).Nodup →
      ∀ p ∈ gens, (persistPin gens sc sg pinned kr).1.lookup p.1 =
        some ⟨p.2, sc p.1⟩ := by
  intro gens
  induction gens with
  | nil => intro sg pinned kr _ p hp; cases hp
  | cons g rest ih =>
    intro sg pinned kr hnd p hp
    rw [List.map_cons, List.nodup_cons] at hnd
    rw [List.mem_cons] at hp
    rcases hp with hp | hp
    · subst hp
      show (persistPin (p :: rest) sc sg pinned kr).1.lookup p.1 = _
      unfold persistPin
      simp only [List.foldl_cons]
      rw [show (List.foldl _ _ rest : List (ℕ × GenRec) × KR) =
        persistPin rest sc (updAssoc sg p.1 ⟨p.2, sc p.1⟩)
          pinned (if p.1 ∈ pinned then addK kr p.1 "pinned" else kr) from rfl]
      rw [persistPin_lookup_not_mem sc p.1 rest _ pinned _ hnd.1]
      exact lookup_updAssoc_self sg p.1 ⟨p.2, sc p.1⟩
    · show (persistPin (g :: rest) sc sg pinned kr).1.lookup p.1 = _
      unfold persistPin
      simp only [List.foldl_cons]
      rw [show (List.foldl _ _ rest : List (ℕ × GenRec) × KR) =
        persistPin rest sc (updAssoc sg g.1 ⟨g.2, sc g.1⟩)
          pinned (if g.1 ∈ pinned then addK kr g.1 "pinned" else kr) from rfl]
      exact ih _ pinned _ hnd.2 p hp

/-- C5: a plan-only (dry-run) invocation never calls the physical-deletion
command and leaves the persisted deletedHistory exactly as loaded, yet it
still saves the updated state document: every enumerated generation gets its
{timestamp, score} record, and the kept map holds the full keep set, sorted,
with its recorded reasons. -/
theorem c5_dry_run_writes_state_without_deletion
    (applyFlag dryRunFlag : Bool) (g : ℕ × ℤ) (gs : List (ℕ × ℤ))
    (link : Option ℕ) (linesOf : ℤ → ℤ → ℤ) (pathSets : ℕ → Finset String)
    (file0 : Option (Except String StateDoc)) (delExit nowClock : ℤ)
    (sigmaHours : ℕ) (st : StateDoc) (r : MainResult)
    (hdry : (if applyFlag then dryRunFlag else true) = true)
    (hnd : ((g :: gs).map Prod.fst).Nodup)
    (hload : load_state file0 = Except.ok st)
    (hr : main applyFlag dryRunFlag (g :: gs) link linesOf pathSets file0
      delExit nowClock sigmaHours = Except.ok r) :
    r.deleteInvoked = false ∧
    ∃ stFin : StateDoc, r.file = save_state stFin ∧
      stFin.deleted = st.deleted ∧
      (∀ p ∈ g :: gs, stFin.gens.lookup p.1 =
        some ⟨p.2, scoreOf linesOf pathSets (g :: gs) p.1⟩) ∧
      stFin.kept = (sortList (fun a b => decide (a ≤ b)) r.keep).map
        (fun x => (x, (r.reasons.lookup x).getD "")) := by
  rw [main_dry_eq applyFlag dryRunFlag g gs link linesOf pathSets file0
    delExit nowClock sigmaHours st hdry hload] at hr
  rw [Except.ok.injEq] at hr
  subst hr
  refine ⟨rfl, _, rfl, rfl, ?_, rfl⟩
  intro p hp
  exact persistPin_lookup (scoreOf linesOf pathSets (g :: gs)) (g :: gs)
    st.gens st.pinned _ hnd p hp

/-- Witness for C5: a concrete two-generation dry run writes the state
document (records and kept map) without touching history or deletion. -/
theorem c5_witness :
    ∃ r : MainResult,
      main false false [(1, 0), (2, 3600)] (some 2) (fun _ _ => 0)
          (fun _ => ∅) none 0 99 12 = Except.ok r ∧
      (r.deleteInvoked = false ∧
       ∃ stFin : StateDoc, r.file = save_state stFin ∧
         stFin.deleted = emptyState.deleted ∧
         (∀ p ∈ [((1 : ℕ), (0 : ℤ)), (2, 3600)], stFin.gens.lookup p.1 =
           some ⟨p.2, scoreOf (fun _ _ => 0) (fun _ => ∅)
             [(1, 0), (2, 3600)] p.1⟩) ∧
         stFin.kept = (sortList (fun a b => decide (a ≤ b)) r.keep).map
           (fun x => (x, (r.reasons.lookup x).getD ""))) := by
  have hok : (main false false [(1, 0), (2, 3600)] (some 2) (fun _ _ => 0)
      (fun _ => ∅) none 0 99 12).isOk = true := by with_unfolding_all decide
  cases hm : main false false [(1, 0), (2, 3600)] (some 2) (fun _ _ => 0)
      (fun _ => ∅) none 0 99 12 with
  | error e =>
    rw [hm] at hok
    exact absurd hok (by simp [Except.isOk, Except.toBool])
  | ok r =>
    exact ⟨r, rfl, c5_dry_run_writes_state_without_deletion false false (1, 0)
      [(2, 3600)] (some 2) (fun _ _ => 0) (fun _ => ∅) none 0 99 12 emptyState
      r rfl (by decide) rfl hm⟩

theorem persistPin_snd_congr (sc : ℕ → ℚ) (pinned : List ℕ) :
    ∀ (gens : List (ℕ × ℤ)) (sg sg' : List (ℕ × GenRec)) (kr : KR),
      (persistPin gens sc sg pinned kr).2 =
        (persistPin gens sc sg' pinned kr).2 := by
  intro gens
  induction gens with
  | nil => intro sg sg' kr; rfl
  | cons g rest ih =>
    intro sg sg' kr
    show (persistPin (g :: rest) sc sg pinned kr).2 = _
    unfold persistPin
    simp only [List.foldl_cons]
    rw [show (List.foldl _ _ rest : List (ℕ × GenRec) × KR) =
      persistPin rest sc (updAssoc sg g.1 ⟨g.2, sc g.1⟩)
        pinned (if g.1 ∈ pinned then addK kr g.1 "pinned" else kr) from rfl]
    rw [show (List.foldl _ _ rest : List (ℕ × GenRec) × KR) =
      persistPin rest sc (updAssoc sg' g.1 ⟨g.2, sc g.1⟩)
        pinned (if g.1 ∈ pinned then addK kr g.1 "pinned" else kr) from rfl]
    exact ih _ _ _

theorem finalKR_pinned_congr (gens : List (ℕ × ℤ)) (link : Option ℕ)
    (linesOf : ℤ → ℤ → ℤ) (pathSets : ℕ → Finset String) (sigmaHours : ℕ)
    (st st' : StateDoc) (hp : st.pinned = st'.pinned) :
    finalKR gens link linesOf pathSets st sigmaHours =
      finalKR gens link linesOf pathSets st' sigmaHours := by
  unfold finalKR
  rw [hp]
  exact persistPin_snd_congr _ _ gens st.gens st'.gens _

theorem main_partition_eq (applyFlag dryRunFlag : Bool) (g : ℕ × ℤ)
    (gs : List (ℕ × ℤ)) (link : Option ℕ) (linesOf : ℤ → ℤ → ℤ)
    (pathSets : ℕ → Finset String) (file0 : Option (Except String StateDoc))
    (delExit nowClock : ℤ) (sigmaHours : ℕ) (st : StateDoc)
    (hload : load_state file0 = Except.ok st) :
    partitionOf (main applyFlag dryRunFlag (g :: gs) link linesOf pathSets
        file0 delExit nowClock sigmaHours) =
      some ((finalKR (g :: gs) link linesOf pathSets st sigmaHours).1,
        finalPlanDelete (g :: gs) link linesOf pathSets st sigmaHours) := by
  by_cases hdry : (if applyFlag then dryRunFlag else true) = true
  · rw [main_dry_eq applyFlag dryRunFlag g gs link linesOf pathSets file0
      delExit nowClock sigmaHours st hdry hload]
    rfl
  · have hflags : applyFlag = true ∧ dryRunFlag = false := by
      cases applyFlag <;> cases dryRunFlag <;> simp_all
    obtain ⟨ha, hd⟩ := hflags
    subst ha; subst hd
    rcases main_apply_eq g gs link linesOf pathSets file0 delExit nowClock
      sigmaHours st hload with heq | ⟨hpd0, heq⟩ <;> rw [heq] <;> rfl

/-- C9: re-running the planner on the identical snapshot list, identical
parsed current-system link (hence identical protected ids), identical raw
feature oracles and a persisted state whose pinned set is unchanged yields
exactly the same keep/delete partition; mode flags, the delete exit code and
the wall clock cannot influence the partition either. -/
theorem c9_identical_partition_on_rerun
    (applyFlag1 dryRunFlag1 applyFlag2 dryRunFlag2 : Bool)
    (gens : List (ℕ × ℤ)) (link : Option ℕ) (linesOf : ℤ → ℤ → ℤ)
    (pathSets : ℕ → Finset String)
    (file1 file2 : Option (Except String StateDoc))
    (delExit1 delExit2 nowClock1 nowClock2 : ℤ) (sigmaHours : ℕ)
    (st1 st2 : StateDoc)
    (hl1 : load_state file1 = Except.ok st1)
    (hl2 : load_state file2 = Except.ok st2)
    (hp : st1.pinned = st2.pinned) :
    partitionOf (main applyFlag1 dryRunFlag1 gens link linesOf pathSets file1
        delExit1 nowClock1 sigmaHours) =
      partitionOf (main applyFlag2 dryRunFlag2 gens link linesOf pathSets
        file2 delExit2 nowClock2 sigmaHours) := by
  cases gens with
  | nil => rfl
  | cons g gs =>
    rw [main_partition_eq applyFlag1 dryRunFlag1 g gs link linesOf pathSets
      file1 delExit1 nowClock1 sigmaHours st1 hl1]
    rw [main_partition_eq applyFlag2 dryRunFlag2 g gs link linesOf pathSets
      file2 delExit2 nowClock2 sigmaHours st2 hl2]
    have hkr := finalKR_pinned_congr (g :: gs) link linesOf pathSets
      sigmaHours st1 st2 hp
    rw [show finalPlanDelete (g :: gs) link linesOf pathSets st1 sigmaHours =
      sortList (fun a b => decide (a ≤ b))
        (deleteList (g :: gs) (booted_generations link).1
          (booted_generations link).2
          (finalKR (g :: gs) link linesOf pathSets st1 sigmaHours).1)
      from rfl]
    rw [show finalPlanDelete (g :: gs) link linesOf pathSets st2 sigmaHours =
      sortList (fun a b => decide (a ≤ b))
        (deleteList (g :: gs) (booted_generations link).1
          (booted_generations link).2
          (finalKR (g :: gs) link linesOf pathSets st2 sigmaHours).1)
      from rfl]
    rw [hkr]

/-- Witness for C9: the same two-generation input planned against the empty
initial state and against a state with a nonempty deletion history and
last-run stamp (same empty pinned set) yields the same partition. -/
theorem c9_witness :
    partitionOf (main false false [(1, 0), (2, 3600)] (some 2) (fun _ _ => 0)
        (fun _ => ∅) none 0 99 12) =
      partitionOf (main true false [(1, 0), (2, 3600)] (some 2) (fun _ _ => 0)
        (fun _ => ∅) (some (Except.ok ⟨[], [], [17], [], some 5⟩)) 1 123 12) :=
  c9_identical_partition_on_rerun false false true false [(1, 0), (2, 3600)]
    (some 2) (fun _ _ => 0) (fun _ => ∅) none
    (some (Except.ok ⟨[], [], [17], [], some 5⟩)) 0 1 99 123 12 emptyState
    ⟨[], [], [17], [], some 5⟩ rfl rfl rfl

theorem mem_keptMapOf (kr : KR) (g : ℕ) (hg : g ∈ kr.1) :
    ∃ s : String, (g, s) ∈ keptMapOf kr := by
  unfold keptMapOf
  refine ⟨((kr.2).lookup g).getD "", ?_⟩
  exact List.mem_map_of_mem _ ((mem_sortList _ g kr.1).mpr hg)

/-- Counterexample to C10: with a parsed current id 0 the truthiness test
`if cur:` skips the keep insertion, so the currently-active id is not added
to the keep set nor to the persisted kept map even though it is known; the
claim's "added unconditionally" fails at this input. -/
theorem c10_counterexample :
    ((main false false [(1, 0)] (some 0) (fun _ _ => 0) (fun _ => ∅) none 0 99
        12).toOption.map
      (fun r => (decide (0 ∈ r.keep),
        (match r.file with
          | some (Except.ok st) => decide (0 ∈ st.kept.map Prod.fst)
          | _ => true)))) = some (false, false) := by
  with_unfolding_all decide

/-- C10 as amended: the previously-active id is always computed as
max(currentId - 1, 1) whenever a current id is parsed; both protected ids
are added to the keep set and to the persisted kept map irrespective of the
tier rules whenever they are nonzero (the previous one is always at least 1,
and the truthiness test only skips a hypothetical current id 0); hence for
some inputs the reported kept map contains an id that does not occur in the
enumerated snapshot sequence. -/
theorem c10_protected_added_when_nonzero :
    (∀ c : ℕ, booted_generations (some c) = (some c, some (max (c - 1) 1))) ∧
    (∀ (applyFlag dryRunFlag : Bool) (g : ℕ × ℤ) (gs : List (ℕ × ℤ)) (c : ℕ)
      (linesOf : ℤ → ℤ → ℤ) (pathSets : ℕ → Finset String)
      (file0 : Option (Except String StateDoc)) (delExit nowClock : ℤ)
      (sigmaHours : ℕ) (st : StateDoc) (r : MainResult),
      0 < c →
      load_state file0 = Except.ok st →
      main applyFlag dryRunFlag (g :: gs) (some c) linesOf pathSets file0
        delExit nowClock sigmaHours = Except.ok r →
      c ∈ r.keep ∧ max (c - 1) 1 ∈ r.keep ∧
      ∃ stFin : StateDoc, r.file = save_state stFin ∧
        (∃ s : String, (c, s) ∈ stFin.kept) ∧
        (∃ s : String, (max (c - 1) 1, s) ∈ stFin.kept)) ∧
    (∃ r : MainResult,
      main false false [(1, 0)] (some 5) (fun _ _ => 0) (fun _ => ∅) none 0 99
        12 = Except.ok r ∧
      ∃ stFin : StateDoc, r.file = save_state stFin ∧
        (∃ s : String, (5, s) ∈ stFin.kept) ∧
        (5 : ℕ) ∉ [((1 : ℕ), (0 : ℤ))].map Prod.fst) := by
  refine ⟨fun c => rfl, ?_, ?_⟩
  · intro aF dF g gs c linesOf pathSets file0 delExit nowClock sigmaHours st r
      hc hload hr
    have hcur : c ∈ (finalKR (g :: gs) (some c) linesOf pathSets st
        sigmaHours).1 :=
      persistPin_keep_mono (g :: gs) _ st.gens st.pinned _ c
        (planKR_keep_mono (g :: gs) _ _ _ c
          (keepProtected_mem_cur c (by omega) _ _))
    have hprev : max (c - 1) 1 ∈ (finalKR (g :: gs) (some c) linesOf pathSets
        st sigmaHours).1 :=
      persistPin_keep_mono (g :: gs) _ st.gens st.pinned _ _
        (planKR_keep_mono (g :: gs) _ _ _ _
          (keepProtected_mem_prev _ (by omega) _ _))
    by_cases hdry : (if aF then dF else true) = true
    · rw [main_dry_eq aF dF g gs (some c) linesOf pathSets file0 delExit
        nowClock sigmaHours st hdry hload] at hr
      rw [Except.ok.injEq] at hr
      subst hr
      exact ⟨hcur, hprev, _, rfl,
        mem_keptMapOf _ c hcur, mem_keptMapOf _ _ hprev⟩
    · have hflags : aF = true ∧ dF = false := by
        cases aF <;> cases dF <;> simp_all
      obtain ⟨ha, hd⟩ := hflags
      subst ha; subst hd
      rcases main_apply_eq g gs (some c) linesOf pathSets file0 delExit
        nowClock sigmaHours st hload with heq | ⟨hpd0, heq⟩ <;>
      · rw [heq] at hr
        rw [Except.ok.injEq] at hr
        subst hr
        exact ⟨hcur, hprev, _, rfl,
          mem_keptMapOf _ c hcur, mem_keptMapOf _ _ hprev⟩
  · have hfile : ((main false false [(1, 0)] (some 5) (fun _ _ => 0)
        (fun _ => ∅) none 0 99 12).toOption.map (fun r => r.file)) =
        some (save_state
          ⟨[(1, ⟨0, 1/10⟩)],
           [(1, "<=3d"), (4, "booted-previous"), (5, "booted-current")],
           [], [], some 99⟩) := by
      with_unfolding_all decide
    cases hm : main false false [(1, 0)] (some 5) (fun _ _ => 0) (fun _ => ∅)
        none 0 99 12 with
    | error e => rw [hm] at hfile; simp [Except.toOption] at hfile
    | ok r =>
      rw [hm] at hfile
      simp only [Except.toOption, Option.map_some', Option.some.injEq]
        at hfile
      exact ⟨r, rfl, _, hfile, ⟨"booted-current", by simp⟩, by decide⟩

/-- Witness for C10 at a concrete input: current id 5 with a single
enumerated generation; both 5 and 4 end up kept and recorded. -/
theorem c10_witness :
    ∃ r : MainResult,
      main false false [(1, 0)] (some 5) (fun _ _ => 0) (fun _ => ∅) none 0 99
          12 = Except.ok r ∧
      (5 ∈ r.keep ∧ max (5 - 1) 1 ∈ r.keep ∧
       ∃ stFin : StateDoc, r.file = save_state stFin ∧
         (∃ s : String, (5, s) ∈ stFin.kept) ∧
         (∃ s : String, (max (5 - 1) 1, s) ∈ stFin.kept)) := by
  have hok : (main false false [(1, 0)] (some 5) (fun _ _ => 0) (fun _ => ∅)
      none 0 99 12).isOk = true := by with_unfolding_all decide
  cases hm : main false false [(1, 0)] (some 5) (fun _ _ => 0) (fun _ => ∅)
      none 0 99 12 with
  | error e =>
    rw [hm] at hok
    exact absurd hok (by simp [Except.isOk, Except.toBool])
  | ok r =>
    exact ⟨r, rfl, c10_protected_added_when_nonzero.2.1 false false (1, 0) []
      5 (fun _ _ => 0) (fun _ => ∅) none 0 99 12 emptyState r (by decide) rfl
      hm⟩

/-! Bounds of the feature normalizer and the activity scorer. -/

theorem pct_bounds (vals : List ℤ) (x : ℤ) :
    0 ≤ pct vals x ∧ pct vals x ≤ 1 := by
  unfold pct
  dsimp only
  split
  · norm_num
  · split
    · split <;> norm_num
    · constructor
      · exact le_max_left 0 _
      · exact max_le (by norm_num) (min_le_left 1 _)

theorem normalize_get_bounds (vals : List ℤ) (x : ℤ) :
    0 ≤ normalize_get vals x ∧ normalize_get vals x ≤ 1 := by
  unfold normalize_get
  split
  · exact pct_bounds vals x
  · norm_num

theorem lookup_mem {β : Type} :
    ∀ (l : List (ℕ × β)) (k : ℕ) (v : β), l.lookup k = some v → (k, v) ∈ l := by
  intro l
  induction l with
  | nil => intro k v h; cases h
  | cons p rest ih =>
    intro k v h
    obtain ⟨a, b⟩ := p
    by_cases hk : k = a
    · subst hk
      simp only [List.lookup_cons, beq_self_eq_true, if_true,
        Option.some.injEq] at h
      subst h
      simp
    · simp only [List.lookup_cons, beq_false_of_ne hk, if_false] at h
      exact List.mem_cons_of_mem _ (ih k v h)

theorem mem_updAssoc {β : Type} :
    ∀ (l : List (ℕ × β)) (k : ℕ) (v : β) (p : ℕ × β),
      p ∈ updAssoc l k v → p ∈ l ∨ p = (k, v) := by
  intro l
  induction l with
  | nil =>
    intro k v p hp
    simp only [updAssoc, List.mem_singleton] at hp
    exact Or.inr hp
  | cons q rest ih =>
    intro k v p hp
    obtain ⟨a, b⟩ := q
    by_cases ha : a = k
    · subst ha
      simp only [updAssoc, if_true, eq_self_iff_true, List.mem_cons] at hp
      rcases hp with hp | hp
      · exact Or.inr (by simpa using hp)
      · exact Or.inl (List.mem_cons_of_mem _ hp)
    · simp only [updAssoc, ha, if_false, List.mem_cons] at hp
      rcases hp with hp | hp
      · exact Or.inl (by simp [hp])
      · rcases ih k v p hp with h | h
        · exact Or.inl (List.mem_cons_of_mem _ h)
        · exact Or.inr h

theorem foldl_inv {β σ : Type} (P : σ → Prop) (f : σ → β → σ)
    (hf : ∀ s x, P s → P (f s x)) :
    ∀ (l : List β) (init : σ), P init → P (l.foldl f init) := by
  intro l
  induction l with
  | nil => intro init h; simpa using h
  | cons x rest ih => intro init h; exact ih (f init x) (hf init x h)

theorem foldl_updAssoc_lookup_isSome {β γ : Type} (key : γ → ℕ) (f : γ → β) :
    ∀ (l : List γ) (d : List (ℕ × β)) (g : ℕ),
      (g ∈ l.map key ∨ (d.lookup g).isSome) →
      ((l.foldl (fun d ig => updAssoc d (key ig) (f ig)) d).lookup g).isSome := by
  intro l
  induction l with
  | nil =>
    intro d g h
    rcases h with h | h
    · cases h
    · simpa using h
  | cons x rest ih =>
    intro d g h
    simp only [List.foldl_cons]
    by_cases hk : g = key x
    · refine ih _ g (Or.inr ?_)
      rw [hk, lookup_updAssoc_self]
      rfl
    · rcases h with h | h
      · rw [List.map_cons, List.mem_cons] at h
        rcases h with h | h
        · exact absurd h hk
        · exact ih _ g (Or.inl h)
      · exact ih _ g (Or.inr (by rwa [lookup_updAssoc_ne _ _ _ _ hk]))

theorem foldl_updAssoc_lookup_of_not_mem {β γ : Type} (key : γ → ℕ)
    (f : γ → β) :
    ∀ (l : List γ) (d : List (ℕ × β)) (g : ℕ), g ∉ l.map key →
      (l.foldl (fun d ig => updAssoc d (key ig) (f ig)) d).lookup g =
        d.lookup g := by
  intro l
  induction l with
  | nil => intro d g _; rfl
  | cons x rest ih =>
    intro d g hg
    rw [List.map_cons, List.mem_cons] at hg
    push_neg at hg
    simp only [List.foldl_cons]
    rw [ih _ g hg.2]
    exact lookup_updAssoc_ne d (key x) g (f x) hg.1

theorem foldl_updAssoc_head_lookup {β γ : Type} (key : γ → ℕ) (f : γ → β)
    (x : γ) (l : List γ) (hnm : key x ∉ l.map key) :
    ((x :: l).foldl (fun d ig => updAssoc d (key ig) (f ig)) []).lookup
      (key x) = some (f x) := by
  simp only [List.foldl_cons]
  rw [foldl_updAssoc_lookup_of_not_mem key f l _ _ hnm]
  exact lookup_updAssoc_self [] (key x) (f x)

theorem scoreVal_bounds (linesOf : ℤ → ℤ → ℤ) (pathSets : ℕ → Finset String)
    (gens : List (ℕ × ℤ)) (ig : ℕ × (ℕ × ℤ)) :
    1/10 ≤ scoreVal linesOf pathSets gens ig ∧
    scoreVal linesOf pathSets gens ig ≤ 1 := by
  unfold scoreVal
  split
  · norm_num
  · have h1 := normalize_get_bounds ((lines_delta linesOf gens).map Prod.snd)
      (((lines_delta linesOf gens).lookup ig.2.1).getD 0)
    have h2 := normalize_get_bounds ((paths_delta pathSets gens).map Prod.snd)
      (((paths_delta pathSets gens).lookup ig.2.1).getD 0)
    constructor <;> nlinarith [h1.1, h1.2, h2.1, h2.2]

theorem scoreDict_values_bounds (linesOf : ℤ → ℤ → ℤ)
    (pathSets : ℕ → Finset String) (gens : List (ℕ × ℤ)) :
    ∀ p ∈ scoreDict linesOf pathSets gens, 1/10 ≤ p.2 ∧ p.2 ≤ 1 := by
  unfold scoreDict
  refine foldl_inv (fun d => ∀ p ∈ d, 1/10 ≤ p.2 ∧ p.2 ≤ 1)
    (fun d ig => updAssoc d ig.2.1 (scoreVal linesOf pathSets gens ig))
    (fun d ig hd p hp => ?_) gens.enum [] (by simp)
  rcases mem_updAssoc d ig.2.1 (scoreVal linesOf pathSets gens ig) p hp with
    h | h
  · exact hd p h
  · rw [h]
    exact scoreVal_bounds linesOf pathSets gens ig

theorem enum_keys_eq (gens : List (ℕ × ℤ)) :
    gens.enum.map (fun ig : ℕ × (ℕ × ℤ) => ig.2.1) = gens.map Prod.fst := by
  rw [show (fun ig : ℕ × (ℕ × ℤ) => ig.2.1) =
    (Prod.fst ∘ (Prod.snd : ℕ × (ℕ × ℤ) → ℕ × ℤ)) from rfl]
  rw [← List.map_map, List.enum_map_snd]

theorem enumFrom_keys_eq (gens : List (ℕ × ℤ)) (n : ℕ) :
    (gens.enumFrom n).map (fun ig : ℕ × (ℕ × ℤ) => ig.2.1) =
      gens.map Prod.fst := by
  rw [show (fun ig : ℕ × (ℕ × ℤ) => ig.2.1) =
    (Prod.fst ∘ (Prod.snd : ℕ × (ℕ × ℤ) → ℕ × ℤ)) from rfl]
  rw [← List.map_map, List.enumFrom_map_snd]

theorem scoreOf_bounds (linesOf : ℤ → ℤ → ℤ) (pathSets : ℕ → Finset String)
    (gens : List (ℕ × ℤ)) (g : ℕ) (hg : g ∈ gens.map Prod.fst) :
    1/10 ≤ scoreOf linesOf pathSets gens g ∧
    scoreOf linesOf pathSets gens g ≤ 1 := by
  have hisSome : ((scoreDict linesOf pathSets gens).lookup g).isSome := by
    unfold scoreDict
    exact foldl_updAssoc_lookup_isSome (fun ig : ℕ × (ℕ × ℤ) => ig.2.1)
      (scoreVal linesOf pathSets gens) gens.enum [] g
      (Or.inl (by rwa [enum_keys_eq]))
  obtain ⟨q, hq⟩ := Option.isSome_iff_exists.mp hisSome
  have hmem := lookup_mem (scoreDict linesOf pathSets gens) g q hq
  have hb := scoreDict_values_bounds linesOf pathSets gens (g, q) hmem
  unfold scoreOf
  rw [hq]
  exact hb

theorem scoreOf_head (linesOf : ℤ → ℤ → ℤ) (pathSets : ℕ → Finset String)
    (g0 : ℕ × ℤ) (rest : List (ℕ × ℤ))
    (hnd : ((g0 :: rest).map Prod.fst).Nodup) :
    scoreOf linesOf pathSets (g0 :: rest) g0.1 = 1/10 := by
  rw [List.map_cons, List.nodup_cons] at hnd
  unfold scoreOf scoreDict
  rw [List.enum_cons]
  have hkey : ((0, g0) : ℕ × (ℕ × ℤ)).2.1 = g0.1 := rfl
  rw [show (((0, g0) : ℕ × (ℕ × ℤ)) :: rest.enumFrom 1) =
    ((0, g0) : ℕ × (ℕ × ℤ)) :: rest.enumFrom 1 from rfl]
  rw [show ((((0, g0) : ℕ × (ℕ × ℤ)) :: rest.enumFrom 1).foldl
      (fun d ig => updAssoc d ig.2.1
        (scoreVal linesOf pathSets (g0 :: rest) ig)) []).lookup g0.1 =
    some (scoreVal linesOf pathSets (g0 :: rest) (0, g0)) from
    foldl_updAssoc_head_lookup (fun ig : ℕ × (ℕ × ℤ) => ig.2.1)
      (scoreVal linesOf pathSets (g0 :: rest)) (0, g0) (rest.enumFrom 1)
      (by rw [enumFrom_keys_eq]; exact hnd.1)]
  rfl

/-- C8: in every nonempty snapshot sequence the chronologically first
snapshot scores exactly 0.1, and every snapshot's activity score lies in the
closed interval [0.1, 1.0]: the two normalized deltas are clamped to [0, 1]
and enter with weights 0.5 and 0.4 on top of the 0.1 base. -/
theorem c8_score_range (linesOf : ℤ → ℤ → ℤ) (pathSets : ℕ → Finset String)
    (gens : List (ℕ × ℤ)) (hne : gens ≠ [])
    (hnd : (gens.map Prod.fst).Nodup) :
    scoreOf linesOf pathSets gens (gens.head hne).1 = 1/10 ∧
    ∀ g ∈ gens.map Prod.fst,
      1/10 ≤ scoreOf linesOf pathSets gens g ∧
      scoreOf linesOf pathSets gens g ≤ 1 := by
  constructor
  · cases gens with
    | nil => exact absurd rfl hne
    | cons g0 rest => exact scoreOf_head linesOf pathSets g0 rest hnd
  · exact fun g hg => scoreOf_bounds linesOf pathSets gens g hg

/-- Witness for C8: a concrete two-snapshot sequence; the head scores 0.1
and both scores lie in [0.1, 1]. -/
theorem c8_witness :
    ([((1 : ℕ), (5 : ℤ)), (2, 7200)] ≠ ([] : List (ℕ × ℤ))) ∧
    scoreOf (fun _ _ => 3) (fun _ => ∅) [(1, 5), (2, 7200)]
      (([((1 : ℕ), (5 : ℤ)), (2, 7200)]).head (by decide)).1 = 1/10 ∧
    ∀ g ∈ ([((1 : ℕ), (5 : ℤ)), (2, 7200)]).map Prod.fst,
      1/10 ≤ scoreOf (fun _ _ => 3) (fun _ => ∅) [(1, 5), (2, 7200)] g ∧
      scoreOf (fun _ _ => 3) (fun _ => ∅) [(1, 5), (2, 7200)] g ≤ 1 := by
  have h := c8_score_range (fun _ _ => 3) (fun _ => ∅) [(1, 5), (2, 7200)]
    (by decide) (by decide)
  exact ⟨by decide, h.1, h.2⟩

theorem floor_hour_mono (a b : ℤ) (h : a ≤ b) : floor_hour a ≤ floor_hour b := by
  unfold floor_hour
  have ha : a - a % 3600 = 3600 * (a / 3600) := by
    have := Int.ediv_add_emod a 3600
    omega
  have hb : b - b % 3600 = 3600 * (b / 3600) := by
    have := Int.ediv_add_emod b 3600
    omega
  rw [ha, hb]
  have := Int.ediv_le_ediv (by norm_num : (0 : ℤ) < 3600) h
  omega

theorem kernel_smooth_length (p0 : ℤ × ℚ) (rest : List (ℤ × ℚ)) (σ : ℕ) :
    (kernel_smooth (p0 :: rest) σ).length =
      ((floor_hour ((p0 :: rest).getLast (List.cons_ne_nil p0 rest)).1 -
        floor_hour p0.1) / 3600 + 1).toNat := by
  unfold kernel_smooth
  dsimp only
  rw [List.length_map, List.length_range]

/-- Counterexample to C7: the chronologically ordered two-point input at
00:30:00 and 01:10:00 spans 40 minutes, so floor(hoursBetween) + 1 = 1, but
the smoother grids from floor-hour(first) = 00:00 to floor-hour(last) =
01:00 and has 2 entries. -/
theorem c7_counterexample :
    (kernel_smooth [((1800 : ℤ), (1 : ℚ)), (4200, 1)] 12).length = 2 ∧
    ((((4200 : ℤ) - 1800) / 3600).toNat + 1) = 1 ∧ (2 : ℕ) ≠ 1 := by
  refine ⟨?_, by decide, by decide⟩
  rw [kernel_smooth_length ((1800 : ℤ), (1 : ℚ)) [(4200, 1)] 12]
  decide

/-- C7 as amended: an empty input yields an empty grid; a nonempty
chronologically ordered input yields exactly
(floor-hour(last) - floor-hour(first))/3600 + 1 hourly entries (one per hour
from floor-hour(first) to floor-hour(last) inclusive, which can exceed
floor(hoursBetween(first, last)) + 1 by one); and when all input scores are
nonnegative every density value is nonnegative. -/
theorem c7_grid_length_and_nonneg (σ : ℕ) (hσ : 0 < σ) :
    kernel_smooth [] σ = [] ∧
    ∀ (p0 : ℤ × ℚ) (rest : List (ℤ × ℚ)),
      (p0 :: rest).Pairwise (fun a b => a.1 ≤ b.1) →
      ((kernel_smooth (p0 :: rest) σ).length =
        ((floor_hour ((p0 :: rest).getLast (List.cons_ne_nil p0 rest)).1 -
          floor_hour p0.1) / 3600).toNat + 1) ∧
      ((∀ q ∈ p0 :: rest, 0 ≤ q.2) →
        ∀ tv ∈ kernel_smooth (p0 :: rest) σ, 0 ≤ tv.2) := by
  refine ⟨rfl, fun p0 rest hpair => ⟨?_, ?_⟩⟩
  · rw [kernel_smooth_length p0 rest σ]
    have hlast : p0.1 ≤ ((p0 :: rest).getLast (List.cons_ne_nil p0 rest)).1 := by
      have hmem := List.getLast_mem (List.cons_ne_nil p0 rest)
      rw [List.mem_cons] at hmem
      rcases hmem with h | h
      · rw [h]
      · exact (List.pairwise_cons.mp hpair).1 _ h
    have hfl := floor_hour_mono p0.1
      ((p0 :: rest).getLast (List.cons_ne_nil p0 rest)).1 hlast
    have hdiv : 0 ≤ (floor_hour ((p0 :: rest).getLast
        (List.cons_ne_nil p0 rest)).1 - floor_hour p0.1) / 3600 :=
      Int.ediv_nonneg (by omega) (by norm_num)
    omega
  · intro hscores tv htv
    unfold kernel_smooth at htv
    rw [List.mem_map] at htv
    obtain ⟨i, hi, rfl⟩ := htv
    refine List.foldlRecOn (p0 :: rest) _ (0 : ℝ) le_rfl ?_
    intro acc hacc q hq
    have h1 : (0 : ℝ) ≤ (q.2 : ℝ) := by
      have := hscores q hq
      exact_mod_cast this
    have h2 : (0 : ℝ) ≤ Real.exp
        (-(|((q.1 : ℝ)) - ((floor_hour p0.1 + 3600 * (i : ℤ) : ℤ) : ℝ)| / 3600 *
          (|((q.1 : ℝ)) - ((floor_hour p0.1 + 3600 * (i : ℤ) : ℤ) : ℝ)| / 3600)) /
          (2 * (σ : ℝ) ^ 2)) := le_of_lt (Real.exp_pos _)
    positivity

/-- Witness for C7's amended theorem at the concrete two-point input of the
counterexample: the grid has 2 entries and all densities are nonnegative. -/
theorem c7_witness :
    kernel_smooth [] 12 = [] ∧
    (kernel_smooth [((1800 : ℤ), (1 : ℚ)), (4200, 1)] 12).length = 2 ∧
    ∀ tv ∈ kernel_smooth [((1800 : ℤ), (1 : ℚ)), (4200, 1)] 12, 0 ≤ tv.2 := by
  have h := c7_grid_length_and_nonneg 12 (by decide)
  have h2 := h.2 ((1800 : ℤ), (1 : ℚ)) [(4200, 1)] (by decide)
  refine ⟨h.1, ?_, h2.2 (by decide)⟩
  rw [h2.1]
  decide

/-! Properties of the used-index mask of the window selector. -/

theorem markRange_length (u : List Bool) (lo hi : ℕ) :
    (markRange u lo hi).length = u.length := by
  simp [markRange]

theorem getD_markRange (u : List Bool) (lo hi k : ℕ) :
    (markRange u lo hi).getD k false =
      if lo ≤ k ∧ k < hi ∧ k < u.length then true else u.getD k false := by
  by_cases hk : k < u.length
  · have hk2 : k < (markRange u lo hi).length := by rwa [markRange_length]
    rw [List.getD_eq_getElem _ false hk2, List.getD_eq_getElem _ false hk]
    unfold markRange
    rw [List.getElem_zipWith]
    rw [List.getElem_range]
    by_cases hcond : lo ≤ k ∧ k < hi
    · simp [hcond, hk]
    · simp only [hcond, if_false]
      rw [if_neg]
      intro h
      exact hcond ⟨h.1, h.2.1⟩
  · rw [List.getD_eq_default _ false (by rw [markRange_length]; omega),
      List.getD_eq_default _ false (by omega)]
    rw [if_neg]
    intro h
    exact hk h.2.2

theorem getD_set_true_preserve (u : List Bool) (i k : ℕ)
    (h : u.getD k false = true) : (u.set i true).getD k false = true := by
  by_cases hk : k < u.length
  · rw [List.getD_eq_getElem _ false (by simpa using hk)]
    by_cases hik : i = k
    · subst hik
      simp
    · rw [List.getElem_set_ne hik]
      rwa [List.getD_eq_getElem _ false hk] at h
  · rw [List.getD_eq_default _ false (by simpa using not_lt.mp hk)] 
    rw [List.getD_eq_default _ false (not_lt.mp hk)] at h
    exact h

theorem getD_markRange_preserve (u : List Bool) (lo hi k : ℕ)
    (h : u.getD k false = true) : (markRange u lo hi).getD k false = true := by
  rw [getD_markRange]
  split
  · rfl
  · exact h

theorem getD_markRange_true (u : List Bool) (lo hi k : ℕ) (h1 : lo ≤ k)
    (h2 : k < hi) (h3 : k < u.length) :
    (markRange u lo hi).getD k false = true := by
  rw [getD_markRange, if_pos ⟨h1, h2, h3⟩]

theorem firstUnused_spec :
    ∀ (u : List Bool) (i : ℕ), firstUnused u = some i →
      i < u.length ∧ u.getD i false = false ∧
      ∀ k, k < i → u.getD k false = true := by
  intro u
  induction u with
  | nil => intro i h; cases h
  | cons b rest ih =>
    intro i h
    unfold firstUnused at h
    cases hb : b with
    | false =>
      rw [hb] at h
      simp only [Bool.false_eq_true, if_false, Option.some.injEq] at h
      subst h
      exact ⟨by simp, rfl, fun k hk => absurd hk (Nat.not_lt_zero k)⟩
    | true =>
      rw [hb] at h
      simp only [if_true, Option.map_eq_some'] at h
      obtain ⟨j, hj, rfl⟩ := h
      obtain ⟨h1, h2, h3⟩ := ih j hj
      refine ⟨by simpa using h1, h2, fun k hk => ?_⟩
      cases k with
      | zero => rfl
      | succ k => exact h3 k (by omega)

theorem foldl_inv_mem {β σ : Type} (P : σ → Prop) :
    ∀ (l : List β) (f : σ → β → σ),
      (∀ s x, x ∈ l → P s → P (f s x)) → ∀ init, P init → P (l.foldl f init) := by
  intro l
  induction l with
  | nil => intro f _ init h; simpa using h
  | cons x rest ih =>
    intro f hf init h
    simp only [List.foldl_cons]
    exact ih f (fun s y hy => hf s y (List.mem_cons_of_mem _ hy)) _
      (hf init x (List.mem_cons_self x rest) h)

theorem bestWindow_spec {α : Type} [LinearOrderedRing α]
    [DecidableRel ((· ≤ ·) : α → α → Prop)]
    [DecidableRel ((· < ·) : α → α → Prop)] (pref : List α)
    (i0 n hmin hmax : ℕ) (ma : α) (i j : ℕ) (a : α)
    (h : bestWindow pref i0 n hmin hmax ma = some (i, j, a)) :
    i = i0 ∧ ∃ L, hmin ≤ L ∧ L ≤ hmax ∧ j = i0 + L ∧ j ≤ n := by
  unfold bestWindow at h
  have key : (fun best : Option (ℕ × ℕ × α) => best = none ∨
      ∀ i j a, best = some (i, j, a) →
        i = i0 ∧ ∃ L, hmin ≤ L ∧ L ≤ hmax ∧ j = i0 + L ∧ j ≤ n)
      ((List.range' hmin (hmax + 1 - hmin)).foldl
        (fun best L =>
          let j := i0 + L
          if n < j then best
          else
            let a := pref.getD j 0 - pref.getD i0 0
            if ma ≤ a then
              match best with
              | none => some (i0, j, a)
              | some b => if b.2.2 < a then some (i0, j, a) else best
            else best)
        none) := by
    refine foldl_inv_mem
      (fun best : Option (ℕ × ℕ × α) => best = none ∨
        ∀ i j a, best = some (i, j, a) →
          i = i0 ∧ ∃ L, hmin ≤ L ∧ L ≤ hmax ∧ j = i0 + L ∧ j ≤ n)
      (List.range' hmin (hmax + 1 - hmin)) _ ?_ none (Or.inl rfl)
    intro best L hL hbest
    rw [List.mem_range'_1] at hL
    have hL2 : hmin ≤ L ∧ L ≤ hmax := by omega
    dsimp only
    split
    · exact hbest
    · next hn =>
      split
      · cases best with
        | none =>
          refine Or.inr fun i j a heq => ?_
          simp only [Option.some.injEq, Prod.mk.injEq] at heq
          exact ⟨heq.1.symm, L, hL2.1, hL2.2, heq.2.1.symm, by omega⟩
        | some bb =>
          dsimp only
          split
          · refine Or.inr fun i j a heq => ?_
            simp only [Option.some.injEq, Prod.mk.injEq] at heq
            exact ⟨heq.1.symm, L, hL2.1, hL2.2, heq.2.1.symm, by omega⟩
          · exact hbest
      · exact hbest
  rcases key with hk | hk
  · rw [h] at hk; cases hk
  · exact hk i j a h

theorem selLoop_invariant {α : Type} [LinearOrderedRing α]
    [DecidableRel ((· ≤ ·) : α → α → Prop)]
    [DecidableRel ((· < ·) : α → α → Prop)]
    (pref : List α) (n hmin hmax : ℕ) (ma : α) :
    ∀ (fuel : ℕ) (used : List Bool) (acc : List (ℕ × ℕ)),
      used.length = n →
      (∀ w ∈ acc, (∃ L, hmin ≤ L ∧ L ≤ hmax ∧ w.2 = w.1 + L) ∧ w.2 ≤ n) →
      (∀ w ∈ acc, ∀ k, w.1 - 12 ≤ k → k < w.2 + 12 → k < n →
        used.getD k false = true) →
      (∀ w ∈ acc, ∀ k, k < w.1 → used.getD k false = true) →
      List.Pairwise (fun w1 w2 => w1.2 + 12 ≤ w2.1) acc →
      (∀ w ∈ selLoop pref n hmin hmax ma fuel used acc,
        (∃ L, hmin ≤ L ∧ L ≤ hmax ∧ w.2 = w.1 + L) ∧ w.2 ≤ n) ∧
      List.Pairwise (fun w1 w2 => w1.2 + 12 ≤ w2.1)
        (selLoop pref n hmin hmax ma fuel used acc) := by
  intro fuel
  induction fuel with
  | zero => intro used acc _ hshape _ _ hpw; exact ⟨hshape, hpw⟩
  | succ fuel ih =>
    intro used acc hlen hshape hmarked hbelow hpw
    cases hfu : firstUnused used with
    | none =>
      simp only [selLoop, hfu]
      exact ⟨hshape, hpw⟩
    | some i0 =>
      obtain ⟨hi0n, hi0f, hi0pre⟩ := firstUnused_spec used i0 hfu
      cases hbw : bestWindow pref i0 n hmin hmax ma with
      | none =>
        simp only [selLoop, hfu, hbw]
        apply ih (used.set i0 true) acc
        · rw [List.length_set]; exact hlen
        · exact hshape
        · intro w hw k h1 h2 h3
          exact getD_set_true_preserve _ _ _ (hmarked w hw k h1 h2 h3)
        · intro w hw k hk
          exact getD_set_true_preserve _ _ _ (hbelow w hw k hk)
        · exact hpw
      | some ija =>
        obtain ⟨i, j, a⟩ := ija
        obtain ⟨hii0, L, hL1, hL2, hjL, hjn⟩ :=
          bestWindow_spec pref i0 n hmin hmax ma i j a hbw
        subst hii0
        have hsep : ∀ w ∈ acc, w.2 + 12 ≤ i := by
          intro w hw
          by_contra hcon
          push_neg at hcon
          have hw1 : ¬ i < w.1 := by
            intro hlt
            have := hbelow w hw i hlt
            rw [this] at hi0f
            cases hi0f
          have hmk : used.getD i false = true :=
            hmarked w hw i (by omega) hcon (by omega)
          rw [hmk] at hi0f
          cases hi0f
        simp only [selLoop, hfu, hbw]
        apply ih (markRange used (i - 12) (j + 12)) (acc ++ [(i, j)])
        · rw [markRange_length]; exact hlen
        · intro w hw
          rw [List.mem_append, List.mem_singleton] at hw
          rcases hw with hw | hw
          · exact hshape w hw
          · subst hw; exact ⟨⟨L, hL1, hL2, hjL⟩, hjn⟩
        · intro w hw k h1 h2 h3
          rw [List.mem_append, List.mem_singleton] at hw
          rcases hw with hw | hw
          · exact getD_markRange_preserve _ _ _ _ (hmarked w hw k h1 h2 h3)
          · subst hw
            exact getD_markRange_true used (i - 12) (j + 12) k h1 h2
              (by omega)
        · intro w hw k hk
          rw [List.mem_append, List.mem_singleton] at hw
          rcases hw with hw | hw
          · exact getD_markRange_preserve _ _ _ _ (hbelow w hw k hk)
          · subst hw
            exact getD_markRange_preserve _ _ _ _ (hi0pre k hk)
        · rw [List.pairwise_append]
          refine ⟨hpw, by simp, fun w hw w2 hw2 => ?_⟩
          rw [List.mem_singleton] at hw2
          subst hw2
          exact hsep w hw

theorem select_windows_index_spec {α : Type} [LinearOrderedRing α]
    [DecidableRel ((· ≤ ·) : α → α → Prop)]
    [DecidableRel ((· < ·) : α → α → Prop)]
    (grid : List (ℤ × α)) (minDays maxDays : ℕ) (ma : α) :
    ∃ wl : List (ℕ × ℕ),
      select_integral_windows grid minDays maxDays ma =
        wl.map (fun w =>
          ((grid.getD w.1 (0, 0)).1, (grid.getD (w.2 - 1) (0, 0)).1)) ∧
      (∀ w ∈ wl, (∃ L, minDays * 24 ≤ L ∧ L ≤ maxDays * 24 ∧ w.2 = w.1 + L) ∧
        w.2 ≤ grid.length) ∧
      List.Pairwise (fun w1 w2 => w1.2 + 12 ≤ w2.1) wl := by
  have h := selLoop_invariant (prefixSums (grid.map Prod.snd) 0) grid.length
    (minDays * 24) (maxDays * 24) ma (grid.length + 1)
    (List.replicate grid.length false) [] (by simp) (by simp) (by simp)
    (by simp) (by simp)
  exact ⟨selLoop (prefixSums (grid.map Prod.snd) 0) grid.length (minDays * 24)
    (maxDays * 24) ma (grid.length + 1) (List.replicate grid.length false) [],
    rfl, h.1, h.2⟩

/-- Counterexample to C4: on a 24-cell hourly grid with minDays = maxDays = 1
the selector returns the window (0, 82800), whose end - start span is
23 hours = minDays·24 - 1 hours, strictly below the claimed lower bound of
minDays·24 hours (the end timestamp is the last grid hour of the window,
one hour short of start + L). -/
theorem c4_counterexample :
    select_integral_windows (hourlyGrid 24 0) 1 1 0 = [(0, 82800)] ∧
    ¬ ((1 * 24 * 3600 : ℤ) ≤ 82800 - 0) := by
  constructor
  · decide
  · decide

/-- C4 as amended: on an hourly grid, every window (s, e) returned by the
selector with 1 ≤ minDays satisfies
3600·(24·minDays - 1) ≤ e - s ≤ 3600·(24·maxDays - 1): the window covers L
grid hours with minDays·24 ≤ L ≤ maxDays·24, and its reported endpoints are
the first and last covered hours, so the timestamp span is L - 1 hours, one
hour short of the claimed [minDays·24, maxDays·24] hour bounds. -/
theorem c4_window_span_bounds {α : Type} [LinearOrderedRing α]
    [DecidableRel ((· ≤ ·) : α → α → Prop)]
    [DecidableRel ((· < ·) : α → α → Prop)]
    (grid : List (ℤ × α)) (minDays maxDays : ℕ) (ma : α) (t0 : ℤ)
    (hmin1 : 1 ≤ minDays)
    (hgrid : ∀ k, k < grid.length → (grid.getD k (0, 0)).1 = t0 + 3600 * k) :
    ∀ w ∈ select_integral_windows grid minDays maxDays ma,
      3600 * (24 * (minDays : ℤ) - 1) ≤ w.2 - w.1 ∧
      w.2 - w.1 ≤ 3600 * (24 * (maxDays : ℤ) - 1) := by
  obtain ⟨wl, heq, hshape, _⟩ :=
    select_windows_index_spec grid minDays maxDays ma
  intro w hw
  rw [heq, List.mem_map] at hw
  obtain ⟨iw, hiw, rfl⟩ := hw
  obtain ⟨⟨L, hL1, hL2, hjL⟩, hjn⟩ := hshape iw hiw
  have hL24 : 24 ≤ L := by
    have : 24 * 1 ≤ minDays * 24 := by omega
    omega
  have hi_lt : iw.1 < grid.length := by omega
  have hj_lt : iw.2 - 1 < grid.length := by omega
  dsimp only
  rw [hgrid iw.1 hi_lt, hgrid (iw.2 - 1) hj_lt]
  have hcast : ((iw.2 - 1 : ℕ) : ℤ) = (iw.1 : ℤ) + (L : ℤ) - 1 := by omega
  rw [hcast]
  have hminL : (minDays : ℤ) * 24 ≤ (L : ℤ) := by exact_mod_cast hL1
  have hmaxL : (L : ℤ) ≤ (maxDays : ℤ) * 24 := by exact_mod_cast hL2
  constructor <;> nlinarith [hminL, hmaxL]

/-- Witness for C4's amended theorem: the 24-cell hourly zero-density grid
of the counterexample, whose single window spans exactly 23 hours. -/
theorem c4_witness :
    (1 ≤ 1) ∧
    ∀ w ∈ select_integral_windows (hourlyGrid 24 0) 1 1 0,
      3600 * (24 * (1 : ℤ) - 1) ≤ w.2 - w.1 ∧
      w.2 - w.1 ≤ 3600 * (24 * (1 : ℤ) - 1) :=
  ⟨le_refl 1,
    c4_window_span_bounds (hourlyGrid 24 0) 1 1 0 0 (le_refl 1)
      (by decide)⟩

/-- Counterexample to C6: on a 60-cell hourly constant grid with
minDays = maxDays = 1 the selector returns the windows (0, 82800) and
(129600, 212400), separated by only 13 hours; expanding both windows by the
12-hour guard band on both sides produces the intervals [-43200, 126000] and
[86400, 255600], which overlap. -/
theorem c6_counterexample :
    select_integral_windows (hourlyGrid 60 1) 1 1 0 =
      [(0, 82800), (129600, 212400)] ∧
    max ((0 : ℤ) - 12 * 3600) (129600 - 12 * 3600) ≤
      min ((82800 : ℤ) + 12 * 3600) (212400 + 12 * 3600) := by
  constructor
  · decide
  · decide

/-- C6 as amended: on an hourly grid with 1 ≤ minDays the returned windows
are pairwise disjoint, and any window listed later starts at least 13 hours
after the end of any earlier one (the guard band claims 12 grid cells past
the window end before the next search may begin); 13 hours of separation is
not enough to keep the windows disjoint once each is expanded by 12 hours on
both sides, so the guard-expanded disjointness of the original claim does
not hold. -/
theorem c6_windows_separation {α : Type} [LinearOrderedRing α]
    [DecidableRel ((· ≤ ·) : α → α → Prop)]
    [DecidableRel ((· < ·) : α → α → Prop)]
    (grid : List (ℤ × α)) (minDays maxDays : ℕ) (ma : α) (t0 : ℤ)
    (hmin1 : 1 ≤ minDays)
    (hgrid : ∀ k, k < grid.length → (grid.getD k (0, 0)).1 = t0 + 3600 * k) :
    List.Pairwise (fun w1 w2 => w1.2 + 13 * 3600 ≤ w2.1)
      (select_integral_windows grid minDays maxDays ma) ∧
    List.Pairwise (fun w1 w2 => w1.2 < w2.1)
      (select_integral_windows grid minDays maxDays ma) := by
  obtain ⟨wl, heq, hshape, hpair⟩ :=
    select_windows_index_spec grid minDays maxDays ma
  have hsep : List.Pairwise (fun w1 w2 => w1.2 + 13 * 3600 ≤ w2.1)
      (select_integral_windows grid minDays maxDays ma) := by
    rw [heq, List.pairwise_map]
    refine List.Pairwise.imp_of_mem ?_ hpair
    intro a b ha hb hr
    obtain ⟨⟨La, hLa1, hLa2, haL⟩, han⟩ := hshape a ha
    obtain ⟨⟨Lb, hLb1, hLb2, hbL⟩, hbn⟩ := hshape b hb
    have hLa24 : 24 ≤ La := by
      have : 24 * 1 ≤ minDays * 24 := by omega
      omega
    have hLb24 : 24 ≤ Lb := by
      have : 24 * 1 ≤ minDays * 24 := by omega
      omega
    have ha_lt : a.2 - 1 < grid.length := by omega
    have hb_lt : b.1 < grid.length := by omega
    dsimp only
    rw [hgrid (a.2 - 1) ha_lt, hgrid b.1 hb_lt]
    omega
  exact ⟨hsep, hsep.imp (fun h => by omega)⟩

/-- Witness for C6's amended theorem: the 60-cell hourly constant grid of
the counterexample; its two windows are separated by 13 hours and disjoint. -/
theorem c6_witness :
    (1 ≤ 1) ∧
    List.Pairwise (fun w1 w2 => w1.2 + 13 * 3600 ≤ w2.1)
      (select_integral_windows (hourlyGrid 60 1) 1 1 0) ∧
    List.Pairwise (fun w1 w2 => w1.2 < w2.1)
      (select_integral_windows (hourlyGrid 60 1) 1 1 0) := by
  have h := c6_windows_separation (hourlyGrid 60 1) 1 1 0 0 (le_refl 1)
    (by decide)
  exact ⟨le_refl 1, h.1, h.2⟩
